import Mathlib

set_option maxRecDepth 8000

/-!
Verification development for the POLARIS trainer core
(src/polaris/training/trainer.py): episode aggregation, per-step
policy-information collection, per-agent state updates with replay-buffer
storage, step-info allocations, and the Synaptic Intelligence (SI) task
bookkeeping.

Modelling conventions: Python dictionaries become association lists,
numpy/torch scalars become rationals, tensors that may carry NaN/Inf become
lists of extended values, and every fallible path returns Except.
-/

/-- Association-list lookup, modelling Python dict access by key.
The first matching entry wins; Python dicts have unique keys. -/
def assocGet {κ α : Type} [DecidableEq κ] : List (κ × α) → κ → Option α
  | [], _ => none
  | p :: rest, k => if p.1 = k then some p.2 else assocGet rest k

/-- Arithmetic mean of a list of rationals, modelling np.mean on a
non-empty numeric list. -/
def npMean (l : List ℚ) : ℚ := l.sum / l.length

/-- Effectful map over a list in the Except monad, failing on the first
error, modelling a Python list comprehension whose body may raise. -/
def mapExcept {ε α β : Type} (f : α → Except ε β) : List α → Except ε (List β)
  | [] => .ok []
  | a :: as => do
    let b ← f a
    let bs ← mapExcept f as
    .ok (b :: bs)

/-- Decidable equality of Except values, used to evaluate the embedding on
concrete inputs. -/
instance exceptDecEq {ε α : Type} [DecidableEq ε] [DecidableEq α] :
    DecidableEq (Except ε α) := fun x y =>
  match x, y with
  | .ok a, .ok b =>
    match decEq a b with
    | isTrue h => isTrue (by rw [h])
    | isFalse h => isFalse (fun he => h (Except.ok.inj he))
  | .error e, .error f =>
    match decEq e f with
    | isTrue h => isTrue (by rw [h])
    | isFalse h => isFalse (fun he => h (Except.error.inj he))
  | .ok _, .error _ => isFalse (fun he => Except.noConfusion he)
  | .error _, .ok _ => isFalse (fun he => Except.noConfusion he)

/-- Dynamically-typed metric value, modelling the values stored in a
per-episode metrics dictionary: a numeric scalar, a list, or a dict keyed
by agent id. -/
inductive MVal where
  | num (q : ℚ)
  | vlist (l : List MVal)
  | dict (m : List (ℕ × MVal))
deriving Repr

/-- Decidable equality for MVal (structural, like Python ==
on these shapes). -/
def MVal.beq : MVal → MVal → Bool
  | .num a, .num b => a == b
  | .vlist a, .vlist b =>
    let rec listBeq : List MVal → List MVal → Bool
      | [], [] => true
      | x :: xs, y :: ys => MVal.beq x y && listBeq xs ys
      | _, _ => false
    listBeq a b
  | .dict a, .dict b =>
    let rec dictBeq : List (ℕ × MVal) → List (ℕ × MVal) → Bool
      | [], [] => true
      | x :: xs, y :: ys => x.1 == y.1 && MVal.beq x.2 y.2 && dictBeq xs ys
      | _, _ => false
    dictBeq a b
  | _, _ => false

/-- A per-episode metrics record: one Python dict from metric name to value. -/
abbrev Record := List (String × MVal)

/-- Require a numeric value, modelling np.mean raising a TypeError when an
entry of the averaged list is not a number. -/
def asNum : MVal → Except String ℚ
  | .num q => .ok q
  | _ => .error "TypeError: unsupported operand for mean"

/-- Require a dict value, modelling an AttributeError when .keys() or .get
is called on a non-dict. -/
def asDict : MVal → Except String (List (ℕ × MVal))
  | .dict m => .ok m
  | _ => .error "AttributeError: object has no attribute get"

/-- Python truthiness of a metric value: zero, the empty list and the empty
dict are falsy. -/
def truthy : MVal → Bool
  | .num q => q != 0
  | .vlist l => !l.isEmpty
  | .dict m => !m.isEmpty

/-- Python isinstance(value, list). -/
def isList : MVal → Bool
  | .vlist _ => true
  | _ => false

/-- Python list.extend(x): a list extends by its elements, a dict extends by
its keys, and a number raises a TypeError (not iterable). -/
def pyExtendList : MVal → Except String (List MVal)
  | .vlist l => .ok l
  | .dict m => .ok (m.map (fun p => MVal.num p.1))
  | .num _ => .error "TypeError: float object is not iterable"

/-- Python membership test (agent_id in value): key containment for dicts,
element containment for lists, and a TypeError for numbers. -/
def pyContains (v : MVal) (a : ℕ) : Except String Bool :=
  match v with
  | .dict m => .ok (assocGet m a).isSome
  | .vlist l => .ok (l.any (fun x => MVal.beq x (.num a)))
  | .num _ => .error "TypeError: argument of type float is not iterable"

/-- Python subscript value[agent_id]: dict lookup (KeyError when absent) or
list indexing (IndexError when out of range); numbers are not subscriptable. -/
def pySubscript (v : MVal) (a : ℕ) : Except String MVal :=
  match v with
  | .dict m =>
    match assocGet m a with
    | some x => .ok x
    | none => .error "KeyError"
  | .vlist l =>
    match l.get? a with
    | some x => .ok x
    | none => .error "IndexError"
  | .num _ => .error "TypeError: float object is not subscriptable"

/-- Trainer._aggregate_episode_results, agent-keyed list branch: the inner
loop over episodes for one metric key and one agent id. Episodes lacking
the key, or whose dict lacks the agent, are skipped; present per-agent
lists are concatenated across episodes in input order
(trainer.py lines 461 to 469). -/
def collectAgentLists (k : String) (a : ℕ) : List Record → Except String (List MVal)
  | [] => .ok []
  | ep :: rest =>
    match assocGet ep k with
    | none => collectAgentLists k a rest
    | some v => do
      let b ← pyContains v a
      if b then do
        let x ← pySubscript v a
        let xs ← pyExtendList x
        let t ← collectAgentLists k a rest
        .ok (xs ++ t)
      else collectAgentLists k a rest

/-- Trainer._aggregate_episode_results, flat list branch: concatenate the
per-episode values of a list-valued key across episodes in input order
(trainer.py lines 470 to 476). -/
def concatLists (k : String) : List Record → Except String (List MVal)
  | [] => .ok []
  | ep :: rest =>
    match assocGet ep k with
    | none => concatLists k rest
    | some x => do
      let xs ← pyExtendList x
      let t ← concatLists k rest
      .ok (xs ++ t)

/-- Trainer._aggregate_episode_results, total_rewards branch, inner mean for
one agent id: ep_rewards.get(agent_id, 0) collected over all episodes, then
np.mean (trainer.py lines 453 to 457). -/
def trAgentMean (allRewards : List MVal) (a : ℕ) : Except String ℚ := do
  let rs ← mapExcept (fun r => do
      let d ← asDict r
      asNum ((assocGet d a).getD (.num 0))) allRewards
  .ok (npMean rs)

/-- Build the aggregated dict for a dict-valued key: iterate the keys of the
first episode value and compute one entry per agent id (the original values
are not consulted, matching the source loops over .keys()). -/
def mapEntries (g : ℕ → Except String MVal) : List (ℕ × MVal) → Except String (List (ℕ × MVal))
  | [] => .ok []
  | p :: rest => do
    let x ← g p.1
    let tail ← mapEntries g rest
    .ok ((p.1, x) :: tail)

/-- Trainer._aggregate_episode_results, per-key merge policy
(trainer.py lines 438 to 476): episode_time is averaged, total_rewards is
averaged per agent (with .get defaults), a dict whose values are all lists
is concatenated per agent, a flat list is concatenated, and anything else
yields no entry. Returns none when the key produces no aggregated entry. -/
def aggKey (k : String) (v : MVal) (eps : List Record) : Except String (Option MVal) :=
  if k = "episode_time" then do
    let times ← mapExcept (fun ep => asNum ((assocGet ep "episode_time").getD (.num 0))) eps
    .ok (some (.num (npMean times)))
  else if k = "total_rewards" then
    let allRewards := eps.map (fun ep => (assocGet ep "total_rewards").getD (.dict []))
    match allRewards with
    | [] => .ok none
    | r0 :: _ =>
      if truthy r0 then do
        let m ← asDict r0
        let entries ← mapEntries (fun a => do
            let q ← trAgentMean allRewards a
            .ok (MVal.num q)) m
        .ok (some (.dict entries))
      else .ok none
  else
    match v with
    | .dict m =>
      if m.all (fun p => isList p.2) then do
        let entries ← mapEntries (fun a => do
            let l ← collectAgentLists k a eps
            .ok (MVal.vlist l)) m
        .ok (some (.dict entries))
      else .ok none
    | .vlist _ => do
      let l ← concatLists k eps
      .ok (some (.vlist l))
    | .num _ => .ok none

/-- Trainer._aggregate_episode_results, outer loop: iterate the items of the
first episode record in order and append each aggregated entry
(trainer.py lines 439 to 478). -/
def buildAgg (eps : List Record) : List (String × MVal) → Record → Except String Record
  | [], acc => .ok acc
  | kv :: rest, acc =>
    match aggKey kv.1 kv.2 eps with
    | .error e => .error e
    | .ok none => buildAgg eps rest acc
    | .ok (some out) => buildAgg eps rest (acc ++ [(kv.1, out)])

/-- Trainer._aggregate_episode_results: empty input yields an empty record;
otherwise the first episode record fixes the key set
(trainer.py lines 429 to 478). -/
def aggregateEpisodeResults (eps : List Record) : Except String Record :=
  match eps with
  | [] => .ok []
  | first :: _ => buildAgg eps first []

/-- Spec-side reading of ep_rewards.get(agent_id, 0) used to state the
default-to-zero behavior of the total_rewards mean: the numeric entry when
present, else 0. -/
def trValD (m : List (ℕ × MVal)) (a : ℕ) : ℚ :=
  match assocGet m a with
  | some (.num q) => q
  | _ => 0

/-- Spec-side reading of the per-agent contribution of one episode to an
agent-keyed list metric: the per-agent list when the agent is present,
else nothing (the episode is skipped for that agent). -/
def agentListD (m : List (ℕ × MVal)) (a : ℕ) : List MVal :=
  match assocGet m a with
  | some (.vlist l) => l
  | _ => []

/-- Tensor values owned by an agent (beliefs, latents, logits), abstracted
as lists of rationals; the claims below never depend on tensor internals. -/
abbrev Tensor := List ℚ

/-- Mapping from neighbor agent id to its reported action or allocation. -/
abbrev NbrMap := List (ℕ × ℚ)

/-- Output of the signal half of encode_observation.
Modelled from the spec: encode_observation lives in polaris/utils/encoding.py,
which is not part of the sources here; section 4.1 of the spec describes it as
a fixed-shape deterministic encoding of its inputs, so it is modelled as the
injective tuple of those inputs. -/
structure SignalEnc where
  signal : ℚ
  numStates : ℕ
  continuousSignal : Bool
deriving DecidableEq, Repr

/-- Output of the neighbor-action half of encode_observation.
Modelled from the spec, as for SignalEnc. -/
structure ActionsEnc where
  neighborActions : NbrMap
  numAgents : ℕ
  numStates : ℕ
  continuousActions : Bool
deriving DecidableEq, Repr

/-- Modelled from the spec: encode_observation(signal, neighbor_actions,
num_agents, num_states, continuous_actions, continuous_signal) returns the
pair (signal_encoded, actions_encoded). -/
def encodeObservation (signal : ℚ) (neighborActions : NbrMap)
    (numAgents numStates : ℕ) (continuousActions continuousSignal : Bool) :
    SignalEnc × ActionsEnc :=
  (⟨signal, numStates, continuousSignal⟩,
   ⟨neighborActions, numAgents, numStates, continuousActions⟩)

/-- A per-agent reward value as delivered by the environment: a bare Python
int, a bare Python float, or a dict with a total field. -/
inductive RewardVal where
  | rint (n : ℤ)
  | rfloat (q : ℚ)
  | rdict (total : ℚ)
deriving DecidableEq, Repr

/-- Errors surfaced by the per-step trainer code. The first two are the
exception classes declared in trainer.py; the rest model ordinary Python
runtime errors. -/
inductive UpdateError where
  | invalidBeliefDistribution
  | observationProcessing
  | typeError
  | keyError
  | nameError
  | insufficientData
deriving DecidableEq, Repr

/-- Reward argument of the infer_latent call
(trainer.py lines 840 to 844 and 854 to 859):
rewards[agent_id] if isinstance(rewards[agent_id], float) else
rewards[agent_id]["total"]. A bare int fails the float test and is then
subscripted, raising a TypeError. -/
def latentRewardArg : RewardVal → Except UpdateError ℚ
  | .rfloat q => .ok q
  | .rdict t => .ok t
  | .rint _ => .error .typeError

/-- Reward stored with the transition (trainer.py lines 876 to 880):
rewards[agent_id]["total"] if isinstance(rewards[agent_id], dict) else
rewards[agent_id]. -/
def storedRewardArg : RewardVal → ℚ
  | .rdict t => t
  | .rfloat q => q
  | .rint n => (n : ℚ)

/-- Reward accumulation in Trainer.quick_evaluate
(trainer.py lines 1066 to 1070). -/
def quickEvalRewardAdd (total : ℚ) (r : RewardVal) : ℚ :=
  match r with
  | .rdict t => total + t
  | .rfloat q => total + q
  | .rint n => total + (n : ℚ)

/-- A raw per-agent observation record. Fields are optional because the two
environment variants populate different keys; neighborAllocations is doubly
optional because the key may be absent, or present with value None. -/
structure Obs where
  signal : Option ℚ
  neighborActions : Option NbrMap
  backgroundSignal : Option ℚ
  backgroundIncrement : Option ℚ
  neighborAllocations : Option (Option NbrMap)
deriving Repr

/-- The signals and neighbor reports extracted from one observation pair. -/
structure ExtractedObs where
  signal : ℚ
  nextSignal : ℚ
  neighborActions : NbrMap
  nextNeighborActions : NbrMap
deriving DecidableEq, Repr

/-- Trainer._update_agent_states, observation dispatch
(trainer.py lines 765 to 804): the social-learning variant is selected by a
signal key, the strategic-experimentation variant by a background_signal
key. In the latter, both the current and the next record must carry
background_increment, else ObservationProcessingError is raised and the
absolute background_signal is never used in its place. When neither variant
key is present the Python code would hit an unbound local variable
(modelled as nameError). -/
def extractSignals (obs nextObs : Obs) : Except UpdateError ExtractedObs :=
  match obs.signal with
  | some s =>
    match nextObs.signal, obs.neighborActions, nextObs.neighborActions with
    | some ns, some na, some nna => .ok ⟨s, ns, na, nna⟩
    | _, _, _ => .error .keyError
  | none =>
    match obs.backgroundSignal with
    | some _ =>
      match obs.backgroundIncrement, nextObs.backgroundIncrement with
      | some i, some ni =>
        let na := match obs.neighborAllocations with
          | some (some m) => m
          | some none => []
          | none => []
        let nna := match nextObs.neighborAllocations with
          | some (some m) => m
          | some none => []
          | none => []
        .ok ⟨i, ni, na, nna⟩
      | _, _ => .error .observationProcessing
    | none => .error .nameError

/-- Extended tensor entry for belief distributions: NaN, positive or
negative infinity, or a finite value. -/
inductive XVal where
  | nan
  | posInf
  | negInf
  | fin (q : ℚ)
deriving DecidableEq, Repr

/-- torch.isnan on one entry: true only for NaN, false for infinities. -/
def XVal.isNaN : XVal → Bool
  | .nan => true
  | _ => false

/-- max(0.0, min(1.0, raw)) as in trainer.py line 659. Python min and max
keep the first argument when a comparison with NaN is false, so a NaN input
would come out as 1 (unreachable here: the NaN check already raised). -/
def clip01 : XVal → XVal
  | .fin q => .fin (max 0 (min 1 q))
  | .posInf => .fin 1
  | .negInf => .fin 0
  | .nan => .fin 1

/-- IEEE-style multiplication of an extended entry by a finite weight. -/
def xmulQ : XVal → ℚ → XVal
  | .nan, _ => .nan
  | .posInf, w => if 0 < w then .posInf else if w < 0 then .negInf else .nan
  | .negInf, w => if 0 < w then .negInf else if w < 0 then .posInf else .nan
  | .fin q, w => .fin (q * w)

/-- IEEE-style addition of extended entries. -/
def xadd : XVal → XVal → XVal
  | .nan, _ => .nan
  | _, .nan => .nan
  | .posInf, .negInf => .nan
  | .negInf, .posInf => .nan
  | .posInf, _ => .posInf
  | _, .posInf => .posInf
  | .negInf, _ => .negInf
  | _, .negInf => .negInf
  | .fin a, .fin b => .fin (a + b)

/-- Multi-state branch of the belief extraction (trainer.py lines 666 to
677): weights arange(k)/(k-1), then torch.sum of the elementwise product. -/
def weightedBelief (d : List XVal) : XVal :=
  let k := d.length
  let weights := (List.range k).map (fun i => (i : ℚ) / ((k : ℚ) - 1))
  (List.zipWith xmulQ d weights).foldl xadd (.fin 0)

/-- Per-agent belief extraction after the NaN check
(trainer.py lines 652 to 677), with the distribution modelled as the row of
a (1, k) tensor: one entry is clipped to [0,1], two entries yield the
probability of state 1, more entries yield the weighted average. -/
def agentBeliefValue : List XVal → XVal
  | [x] => clip01 x
  | [_, x1] => x1
  | d => weightedBelief d

/-- Per-agent NaN check and belief extraction
(trainer.py lines 643 to 677): torch.isnan(d).any() raises
InvalidBeliefDistributionError, anything else produces a value. -/
def collectAgentBelief (d : List XVal) : Except UpdateError XVal :=
  if d.any XVal.isNaN then .error .invalidBeliefDistribution
  else .ok (agentBeliefValue d)

/-- Loop of Trainer._collect_policy_information over agents
(trainer.py lines 637 to 677): agents without a current belief distribution
are skipped, the rest are checked and collected in order. -/
def collectBeliefsAux : List (ℕ × Option (List XVal)) → Except UpdateError (List (ℕ × XVal))
  | [] => .ok []
  | p :: rest =>
    match p.2 with
    | none => collectBeliefsAux rest
    | some d =>
      match collectAgentBelief d with
      | .error e => .error e
      | .ok b => do
        let tail ← collectBeliefsAux rest
        .ok ((p.1, b) :: tail)

/-- Agent capability handle (POLARISAgent is external to these sources).
Modelled from the spec, section 6: observe returns the new belief and its
distribution, infer_latent returns the new latent, policy returns action
logits and a scalar allocation; the recurrent fields hold the current
belief and latent, and currentBeliefDistribution may be absent. -/
structure Agent where
  observe : SignalEnc → ActionsEnc → Tensor × Tensor
  inferLatent : SignalEnc → ActionsEnc → ℚ → SignalEnc → Tensor
  policy : Tensor → Tensor → Tensor × ℚ
  getBeliefDistribution : Tensor
  getLatentDistributionParams : Tensor × Tensor
  continuousActions : Bool
  currentBelief : Tensor
  currentLatent : Tensor
  currentBeliefDistribution : Option (List XVal)

/-- A transition record as pushed by store_transition_in_buffer
(trainer.py lines 890 to 904), in argument order. -/
structure Transition where
  signal : SignalEnc
  neighborActions : ActionsEnc
  belief : Tensor
  latent : Tensor
  action : ℚ
  reward : ℚ
  nextSignal : SignalEnc
  nextNeighborActions : ActionsEnc
  nextBelief : Tensor
  nextLatent : Tensor
  mean : Tensor
  logvar : Tensor
deriving DecidableEq, Repr

/-- One capability or buffer call made during a per-agent state update,
recorded in source order. The noGrad flag is true when the call is made
inside a torch.no_grad() context. -/
inductive CallEvent where
  | observeCall (sig : SignalEnc) (act : ActionsEnc) (noGrad : Bool)
  | inferLatentCall (sig : SignalEnc) (act : ActionsEnc) (reward : ℚ)
      (nextSig : SignalEnc) (noGrad : Bool)
  | policyCall (belief latent : Tensor) (noGrad : Bool)
  | bufferStoreCall (t : Transition)
  | bufferSampleCall (batchSize : ℕ)
  | agentUpdateCall
deriving DecidableEq, Repr

/-- Modelled from the spec, section 4.2: the replay buffer has fixed
capacity, store appends and evicts the oldest entry when full, and never
errors on overflow (replay_buffer.py is not part of these sources). -/
def bufferStore (capacity : ℕ) (buf : List Transition) (t : Transition) :
    List Transition :=
  if capacity ≤ buf.length then buf.drop 1 ++ [t] else buf ++ [t]

/-- Modelled from the spec, section 8: sampling a batch of size B from a
buffer of size S fails iff S is at most B, and succeeds returning exactly B
records iff S exceeds B. The uniform random selection without replacement
is abstracted as taking the first B records; the claims below depend only
on success, failure, and the batch size. -/
def bufferSample (buf : List Transition) (batchSize : ℕ) :
    Except UpdateError (List Transition) :=
  if buf.length ≤ batchSize then .error .insufficientData
  else .ok (buf.take batchSize)

/-- The trainer configuration fields consumed by the per-step code. -/
structure TrainCfg where
  numAgents : ℕ
  numStates : ℕ
  continuousActions : Bool
  batchSize : ℕ
  updateInterval : ℕ
  bufferCapacity : ℕ
deriving Repr

/-- Result of one per-agent state update: the agent with its refreshed
recurrent state, the replay buffer after any store, the calls made, and the
belief distribution appended to the metrics store. -/
structure AgentStepOut where
  agent : Agent
  buffer : List Transition
  events : List CallEvent
  beliefDistRecorded : Tensor

/-- Trainer._update_agent_states, training tail for one agent
(trainer.py lines 890 to 914): push the transition into the replay buffer,
and when the post-store buffer length strictly exceeds the batch size and
the step index is a multiple of update_interval, sample a batch and run the
agent parameter update. -/
def storeAndMaybeUpdate (cfg : TrainCfg) (buffer : List Transition)
    (t : Transition) (step : ℕ) (events : List CallEvent) (agent1 : Agent) :
    Except UpdateError AgentStepOut :=
  let buffer1 := bufferStore cfg.bufferCapacity buffer t
  let events1 := events ++ [CallEvent.bufferStoreCall t]
  if cfg.batchSize < buffer1.length ∧ step % cfg.updateInterval = 0 then
    match bufferSample buffer1 cfg.batchSize with
    | .error e => .error e
    | .ok _batch =>
      .ok ⟨agent1, buffer1,
           events1 ++ [CallEvent.bufferSampleCall cfg.batchSize,
                       CallEvent.agentUpdateCall],
           agent1.getBeliefDistribution⟩
  else .ok ⟨agent1, buffer1, events1, agent1.getBeliefDistribution⟩

/-- Trainer._update_agent_states, body of the per-agent loop
(trainer.py lines 750 to 923). Signals are extracted per variant and
encoded; the pre-update belief and latent are snapshotted; observe and
infer_latent run with gradients during training, and inside torch.no_grad()
during evaluation, where infer_latent receives the current (not next)
encoded signal; during training with a buffer a transition is stored, the
action being replaced for continuous actions by a fresh policy query (made
outside any no_grad context), and when the post-store buffer exceeds the
batch size on an update-interval step, a batch is sampled and the agent
update runs. Modelled from the spec, sections 3 and 6: observe and
infer_latent mutate the agent held belief and latent, so the refreshed
agent carries the returned values. -/
def updateAgentState (cfg : TrainCfg) (agent : Agent) (buffer : List Transition)
    (obs nextObs : Obs) (action : ℚ) (reward : RewardVal)
    (step : ℕ) (training : Bool) (hasBuffer : Bool) :
    Except UpdateError AgentStepOut :=
  match extractSignals obs nextObs with
  | .error e => .error e
  | .ok ex =>
    let continuousSignal := obs.backgroundIncrement.isSome
    let enc := encodeObservation ex.signal ex.neighborActions
        cfg.numAgents cfg.numStates cfg.continuousActions continuousSignal
    let nextEnc := encodeObservation ex.nextSignal ex.nextNeighborActions
        cfg.numAgents cfg.numStates cfg.continuousActions continuousSignal
    let sigEnc := enc.1
    let actEnc := enc.2
    let nextSigEnc := nextEnc.1
    let nextActEnc := nextEnc.2
    let belief := agent.currentBelief
    let latent := agent.currentLatent
    let nextBelief := (agent.observe sigEnc actEnc).1
    match latentRewardArg reward with
    | .error e => .error e
    | .ok r =>
      let latentSig := if training then nextSigEnc else sigEnc
      let noGrad := !training
      let nextLatent := agent.inferLatent sigEnc actEnc r latentSig
      let events0 := [CallEvent.observeCall sigEnc actEnc noGrad,
                      CallEvent.inferLatentCall sigEnc actEnc r latentSig noGrad]
      let agent1 := { agent with currentBelief := nextBelief,
                                 currentLatent := nextLatent }
      if training && hasBuffer then
        let ml := agent1.getLatentDistributionParams
        let rewardValue := storedRewardArg reward
        let requery := cfg.continuousActions && agent1.continuousActions
        let stored :=
          if requery then
            ((agent1.policy agent1.currentBelief agent1.currentLatent).2,
             events0 ++ [CallEvent.policyCall agent1.currentBelief
                 agent1.currentLatent false])
          else (action, events0)
        let t : Transition := ⟨sigEnc, actEnc, belief, latent, stored.1,
            rewardValue, nextSigEnc, nextActEnc, nextBelief, nextLatent,
            ml.1, ml.2⟩
        storeAndMaybeUpdate cfg buffer t step stored.2 agent1
      else .ok ⟨agent1, buffer, events0, agent1.getBeliefDistribution⟩

/-- The policy information dict built by _collect_policy_information:
agent beliefs always, policy means and stds only for continuous actions. -/
structure PolicyInfo where
  agentBeliefs : List (ℕ × XVal)
  policyMeans : Option (List ℚ)
  policyStds : Option (List ℚ)
deriving DecidableEq, Repr

/-- Trainer._collect_policy_information (trainer.py lines 629 to 706):
for strategic-experimentation environments the per-agent beliefs are
collected with the NaN check; for continuous actions the deterministic
policy is also queried per agent for its mean (std fixed at 0); the
training flag only selects the gradient context of those queries. -/
def collectPolicyInformation (cfg : TrainCfg) (hasSafePayoff _training : Bool)
    (agents : List (ℕ × Agent)) : Except UpdateError PolicyInfo :=
  match (if hasSafePayoff then
      collectBeliefsAux (agents.map (fun p => (p.1, p.2.currentBeliefDistribution)))
    else .ok []) with
  | .error e => .error e
  | .ok beliefs =>
    if cfg.continuousActions then
      let selected := agents.filter (fun p => p.2.continuousActions)
      let means := selected.map (fun p =>
          (p.2.policy p.2.currentBelief p.2.currentLatent).2)
      let stds := selected.map (fun _ => (0 : ℚ))
      .ok ⟨beliefs, some means, some stds⟩
    else .ok ⟨beliefs, none, none⟩

/-- Discrete-action allocations for strategic experimentation
(trainer.py lines 376 to 384): each agent maps to probs[1] when its
probability vector has at least two entries, else to the 0.5 fallback. -/
def discreteAllocations (actionProbs : List (ℕ × List ℚ)) : List (ℕ × ℚ) :=
  actionProbs.map (fun p =>
    (p.1, match p.2 with
          | _ :: p1 :: _ => p1
          | _ => 1/2))

/-- The allocations entry of step info after the strategic-experimentation
block (trainer.py lines 366 to 384): for continuous actions the entry is
set from the raw actions only when the environment did not provide one; for
discrete actions it is always overwritten with the action-1 probabilities;
other environments leave the info untouched. -/
def stepAllocations (hasSafePayoff continuousActions : Bool)
    (infoAllocations : Option (List (ℕ × ℚ))) (actions : List (ℕ × ℚ))
    (actionProbs : List (ℕ × List ℚ)) : Option (List (ℕ × ℚ)) :=
  if hasSafePayoff then
    if continuousActions then
      match infoAllocations with
      | some a => some a
      | none => some actions
    else some (discreteAllocations actionProbs)
  else infoAllocations

/-- Per-agent inputs of one simulation step: the agent, its replay buffer,
its observation pair, its selected action and realized reward, and whether
the agent id is present in the replay-buffer dict. -/
structure PerAgentStep where
  agent : Agent
  buffer : List Transition
  obs : Obs
  nextObs : Obs
  action : ℚ
  reward : RewardVal
  hasBuffer : Bool

/-- What one simulation step produces for the claims below: the collected
policy info, the per-agent update results, and the allocations entry of the
step info. -/
structure StepResult where
  policyInfo : PolicyInfo
  agentOuts : List (ℕ × AgentStepOut)
  infoAllocations : Option (List (ℕ × ℚ))

/-- One iteration of the simulation loop in Trainer._run_simulation
(trainer.py lines 330 to 397), restricted to the trainer-owned parts:
policy information is collected first (before env.step, whose outputs are
inputs here), then every agent state is updated, then the allocations entry
of step info is fixed. Any raised error aborts the step with no result. -/
def simulationStep (cfg : TrainCfg) (hasSafePayoff training : Bool)
    (xs : List (ℕ × PerAgentStep)) (actions : List (ℕ × ℚ))
    (actionProbs : List (ℕ × List ℚ))
    (envInfoAllocations : Option (List (ℕ × ℚ))) (step : ℕ) :
    Except UpdateError StepResult := do
  let pinfo ← collectPolicyInformation cfg hasSafePayoff training
      (xs.map (fun p => (p.1, p.2.agent)))
  let outs ← mapExcept (fun p => do
      let o ← updateAgentState cfg p.2.agent p.2.buffer p.2.obs p.2.nextObs
          p.2.action p.2.reward step training p.2.hasBuffer
      .ok (p.1, o)) xs
  .ok ⟨pinfo, outs,
       stepAllocations hasSafePayoff cfg.continuousActions
         envInfoAllocations actions actionProbs⟩

/-- Per-agent Synaptic Intelligence bookkeeping state: the seen-task set,
the current task of each regularized sub-network, and the current true
state remembered by the agent. -/
structure SIState where
  seenTrueStates : List ℕ
  beliefTask : Option ℕ
  policyTask : Option ℕ
  currentTrueState : Option ℕ
deriving DecidableEq, Repr

/-- Observable SI actions, in call order. -/
inductive SIEvent where
  | setBeliefTask (s : ℕ)
  | setPolicyTask (s : ℕ)
  | registerBelief
  | registerPolicy
  | archiveTrackers (s : ℕ)
deriving DecidableEq, Repr

/-- Modelled from the spec, section 3: a freshly constructed agent has seen
no tasks (POLARISAgent internals are not part of these sources). -/
def freshSIAgent : SIState := ⟨[], none, none, none⟩

/-- Trainer._setup_si_for_training for one SI-enabled agent
(trainer.py lines 597 to 612): the realized true state becomes the current
task of both trackers via set_task; nothing is registered. -/
def setupSIForTraining (s : ℕ) (st : SIState) : SIState × List SIEvent :=
  ({ st with currentTrueState := some s, beliefTask := some s,
             policyTask := some s },
   [SIEvent.setBeliefTask s, SIEvent.setPolicyTask s])

/-- List-as-set insertion used for seen_true_states.add. -/
def seenAdd (seen : List ℕ) (s : ℕ) : List ℕ :=
  if s ∈ seen then seen else seen ++ [s]

/-- Trainer._handle_si_state_changes for one SI-enabled agent
(trainer.py lines 708 to 748): when the true state at episode end is new,
register_task runs on both trackers, set_task starts the new task, and the
trackers are archived; in every case the state is added to the seen set and
recorded as the current true state. -/
def handleSIStateChanges (s : ℕ) (st : SIState) : SIState × List SIEvent :=
  if s ∈ st.seenTrueStates then
    ({ st with seenTrueStates := seenAdd st.seenTrueStates s,
               currentTrueState := some s }, [])
  else
    ({ st with seenTrueStates := seenAdd st.seenTrueStates s,
               beliefTask := some s, policyTask := some s,
               currentTrueState := some s },
     [SIEvent.registerBelief, SIEvent.registerPolicy,
      SIEvent.setBeliefTask s, SIEvent.setPolicyTask s,
      SIEvent.archiveTrackers s])

/-- One training episode as seen by the SI bookkeeping: agents are created
fresh inside _run_simulation (trainer.py line 307), then
_setup_si_for_training runs with the realized true state (line 314), and
_handle_si_state_changes runs only when the environment signals done
(line 396), with the true state at that moment. -/
def runEpisodeSI (ep : ℕ × Option ℕ) : SIState × List SIEvent :=
  let su := setupSIForTraining ep.1 freshSIAgent
  match ep.2 with
  | none => su
  | some s =>
    let h := handleSIStateChanges s su.1
    (h.1, su.2 ++ h.2)

/-- The training episode loop (trainer.py lines 132 to 147) restricted to
one agent SI trajectory: every episode re-creates the agent, so every
episode starts from freshSIAgent. -/
def trainingRunSI (eps : List (ℕ × Option ℕ)) : List (SIState × List SIEvent) :=
  eps.map runEpisodeSI

/-- A minimal concrete agent for evaluating the embedded trainer code on
specific inputs: observe returns belief [5], infer_latent returns latent
[9], the deterministic policy returns allocation 7. -/
def probeAgent (ca : Bool) (dist : Option (List XVal)) : Agent where
  observe := fun _ _ => ([5], [])
  inferLatent := fun _ _ _ _ => [9]
  policy := fun _ _ => ([], 7)
  getBeliefDistribution := [3]
  getLatentDistributionParams := ([4], [6])
  continuousActions := ca
  currentBelief := [1]
  currentLatent := [2]
  currentBeliefDistribution := dist

/-- A concrete trainer configuration for evaluating the embedded code. -/
def probeCfg (ca : Bool) (batchSize updateInterval : ℕ) : TrainCfg where
  numAgents := 2
  numStates := 2
  continuousActions := ca
  batchSize := batchSize
  updateInterval := updateInterval
  bufferCapacity := 10

/-- A social-learning observation record with the given signal and no
neighbor reports. -/
def socialObs (sig : ℚ) : Obs := ⟨some sig, some [], none, none, none⟩

/-- A strategic-experimentation observation record with the given
background signal and increment fields. -/
def stratObs (bg inc : Option ℚ) : Obs := ⟨none, none, bg, inc, none⟩

/-- Event classifier: policy re-query calls. -/
def isPolicyCallEvent : CallEvent → Bool
  | .policyCall _ _ _ => true
  | _ => false

/-- Event classifier: infer_latent calls. -/
def isInferLatentEvent : CallEvent → Bool
  | .inferLatentCall _ _ _ _ _ => true
  | _ => false

/-- Event classifier: buffer store calls. -/
def isBufferStoreEvent : CallEvent → Bool
  | .bufferStoreCall _ => true
  | _ => false

/-- Event classifier: buffer sample calls. -/
def isBufferSampleEvent : CallEvent → Bool
  | .bufferSampleCall _ => true
  | _ => false

/-- Event classifier: agent parameter-update calls. -/
def isAgentUpdateEvent : CallEvent → Bool
  | .agentUpdateCall => true
  | _ => false

theorem assocGet_append_left {κ α : Type} [DecidableEq κ] {l1 : List (κ × α)}
    (l2 : List (κ × α)) {k : κ} {v : α}
    (h : assocGet l1 k = some v) : assocGet (l1 ++ l2) k = some v := by
  induction l1 with
  | nil => simp [assocGet] at h
  | cons p rest ih =>
    by_cases hk : p.1 = k
    · simpa [assocGet, hk] using h
    · rw [List.cons_append]
      rw [assocGet, if_neg hk] at h
      rw [assocGet, if_neg hk]
      exact ih h

theorem assocGet_append_none {κ α : Type} [DecidableEq κ] {l1 : List (κ × α)}
    (l2 : List (κ × α)) {k : κ}
    (h : assocGet l1 k = none) : assocGet (l1 ++ l2) k = assocGet l2 k := by
  induction l1 with
  | nil => simp [assocGet]
  | cons p rest ih =>
    by_cases hk : p.1 = k
    · simp [assocGet, hk] at h
    · rw [assocGet, if_neg hk] at h
      rw [List.cons_append, assocGet, if_neg hk]
      exact ih h

theorem assocGet_append_single {κ α : Type} [DecidableEq κ] {acc : List (κ × α)}
    {k k0 : κ} (o : α) (hne : k ≠ k0) :
    assocGet (acc ++ [(k0, o)]) k = assocGet acc k := by
  cases h : assocGet acc k with
  | some v => exact assocGet_append_left _ h
  | none =>
    rw [assocGet_append_none _ h]
    have hne2 : ¬((k0, o).1 = k) := fun hh => hne hh.symm
    rw [assocGet, if_neg hne2]
    rfl

theorem assocGet_eq_none {κ α : Type} [DecidableEq κ] {l : List (κ × α)} {k : κ}
    (h : k ∉ l.map Prod.fst) : assocGet l k = none := by
  induction l with
  | nil => rfl
  | cons p rest ih =>
    simp only [List.map_cons, List.mem_cons] at h
    push_neg at h
    have hne : ¬(p.1 = k) := fun hh => h.1 hh.symm
    rw [assocGet, if_neg hne]
    exact ih h.2

theorem assocGet_some_mem {κ α : Type} [DecidableEq κ] {l : List (κ × α)} {k : κ} {v : α}
    (h : assocGet l k = some v) : (k, v) ∈ l := by
  induction l with
  | nil => simp [assocGet] at h
  | cons p rest ih =>
    by_cases hk : p.1 = k
    · simp only [assocGet, hk, if_true, Option.some.injEq] at h
      subst hk; subst h
      exact List.mem_cons_self _ _
    · simp only [assocGet, hk, if_false] at h
      exact List.mem_cons_of_mem _ (ih h)

theorem assocGet_mem_nodup {κ α : Type} [DecidableEq κ] {l : List (κ × α)} {k : κ} {v : α}
    (h : (k, v) ∈ l) (hnd : (l.map Prod.fst).Nodup) : assocGet l k = some v := by
  induction l with
  | nil => simp at h
  | cons p rest ih =>
    simp only [List.map_cons, List.nodup_cons] at hnd
    rcases List.mem_cons.mp h with h1 | h1
    · subst h1; simp [assocGet]
    · have hne : p.1 ≠ k := by
        intro he
        exact hnd.1 (he ▸ (List.mem_map.mpr ⟨_, h1, rfl⟩))
      simp only [assocGet, hne, if_false]
      exact ih h1 hnd.2

theorem assocGet_map_keys {κ α β : Type} [DecidableEq κ] (f : κ → β)
    (m : List (κ × α)) (a : κ) :
    assocGet (m.map (fun p => (p.1, f p.1))) a = (assocGet m a).map (fun _ => f a) := by
  induction m with
  | nil => rfl
  | cons p rest ih =>
    by_cases hk : p.1 = a
    · subst hk; simp [assocGet]
    · simp only [List.map_cons, assocGet, hk, if_false]
      exact ih

theorem assocGet_map_pair {κ α β : Type} [DecidableEq κ] (g : κ × α → β)
    {m : List (κ × α)} {a : κ} {x : α}
    (h : (a, x) ∈ m) (hnd : (m.map Prod.fst).Nodup) :
    assocGet (m.map (fun p => (p.1, g p))) a = some (g (a, x)) := by
  have : ((a, x).1, g (a, x)) ∈ m.map (fun p => (p.1, g p)) :=
    List.mem_map.mpr ⟨_, h, rfl⟩
  refine assocGet_mem_nodup this ?_
  simpa [List.map_map, Function.comp] using hnd

theorem buildAgg_get_of_not_mem (eps : List Record) :
    ∀ (items : List (String × MVal)) (acc out : Record),
    buildAgg eps items acc = .ok out → ∀ k, k ∉ items.map Prod.fst →
    assocGet out k = assocGet acc k := by
  intro items
  induction items with
  | nil =>
    intro acc out h k _
    simp only [buildAgg, Except.ok.injEq] at h
    rw [h]
  | cons kv rest ih =>
    intro acc out h k hk
    simp only [List.map_cons, List.mem_cons] at hk
    push_neg at hk
    rw [buildAgg] at h
    cases hagg : aggKey kv.1 kv.2 eps with
    | error e => rw [hagg] at h; cases h
    | ok r =>
      rw [hagg] at h
      cases r with
      | none => exact ih acc out h k hk.2
      | some o =>
        rw [ih (acc ++ [(kv.1, o)]) out h k hk.2]
        exact assocGet_append_single o hk.1

theorem buildAgg_ok (eps : List Record) :
    ∀ (items : List (String × MVal)) (acc : Record),
    (∀ kv ∈ items, ∃ r, aggKey kv.1 kv.2 eps = .ok r) →
    ∃ out, buildAgg eps items acc = .ok out := by
  intro items
  induction items with
  | nil => intro acc _; exact ⟨acc, rfl⟩
  | cons kv rest ih =>
    intro acc hok
    obtain ⟨r, hr⟩ := hok kv (List.mem_cons_self _ _)
    have hrest : ∀ kv2 ∈ rest, ∃ r2, aggKey kv2.1 kv2.2 eps = .ok r2 :=
      fun kv2 hm => hok kv2 (List.mem_cons_of_mem _ hm)
    rw [buildAgg, hr]
    cases r with
    | none => exact ih acc hrest
    | some o => exact ih (acc ++ [(kv.1, o)]) hrest

theorem buildAgg_key_ok (eps : List Record) :
    ∀ (items : List (String × MVal)) (acc out : Record),
    buildAgg eps items acc = .ok out →
    ∀ k v, (k, v) ∈ items → ∃ r, aggKey k v eps = .ok r := by
  intro items
  induction items with
  | nil => intro acc out _ k v hm; simp at hm
  | cons kv rest ih =>
    intro acc out h k v hm
    rw [buildAgg] at h
    cases hagg : aggKey kv.1 kv.2 eps with
    | error e => rw [hagg] at h; cases h
    | ok r =>
      rw [hagg] at h
      rcases List.mem_cons.mp hm with h1 | h1
      · have hk : k = kv.1 := congrArg Prod.fst h1
        have hv : v = kv.2 := congrArg Prod.snd h1
        subst hk; subst hv
        exact ⟨r, hagg⟩
      · cases r with
        | none => exact ih acc out h k v h1
        | some o => exact ih (acc ++ [(kv.1, o)]) out h k v h1

theorem buildAgg_lookup (eps : List Record) :
    ∀ (items : List (String × MVal)) (acc out : Record),
    buildAgg eps items acc = .ok out →
    ∀ k v, (k, v) ∈ items → (items.map Prod.fst).Nodup →
    assocGet acc k = none →
    aggKey k v eps = .ok (assocGet out k) := by
  intro items
  induction items with
  | nil => intro acc out _ k v hm; simp at hm
  | cons kv rest ih =>
    intro acc out h k v hm hnd hacc
    simp only [List.map_cons, List.nodup_cons] at hnd
    rw [buildAgg] at h
    cases hagg : aggKey kv.1 kv.2 eps with
    | error e => rw [hagg] at h; cases h
    | ok r =>
      rw [hagg] at h
      rcases List.mem_cons.mp hm with h1 | h1
      · have hk : k = kv.1 := congrArg Prod.fst h1
        have hv : v = kv.2 := congrArg Prod.snd h1
        subst hk; subst hv
        cases r with
        | none =>
          have hout := buildAgg_get_of_not_mem eps rest acc out h kv.1 hnd.1
          rw [hagg, hout, hacc]
        | some o =>
          have hout := buildAgg_get_of_not_mem eps rest (acc ++ [(kv.1, o)]) out h kv.1 hnd.1
          rw [hagg, hout, assocGet_append_none _ hacc]
          simp [assocGet]
      · cases r with
        | none => exact ih acc out h k v h1 hnd.2 hacc
        | some o =>
          have hne : k ≠ kv.1 := by
            intro he
            exact hnd.1 (he ▸ (List.mem_map.mpr ⟨(k, v), h1, rfl⟩))
          have hacc2 : assocGet (acc ++ [(kv.1, o)]) k = none := by
            rw [assocGet_append_single o hne]; exact hacc
          exact ih (acc ++ [(kv.1, o)]) out h k v h1 hnd.2 hacc2

theorem aggregate_lookup {first : Record} {rest : List Record} {out : Record}
    (h : aggregateEpisodeResults (first :: rest) = .ok out)
    {k : String} {v : MVal} (hmem : (k, v) ∈ first)
    (hnd : (first.map Prod.fst).Nodup) :
    aggKey k v (first :: rest) = .ok (assocGet out k) := by
  rw [aggregateEpisodeResults] at h
  exact buildAgg_lookup _ first [] out h k v hmem hnd rfl

theorem aggregate_absent {first : Record} {rest : List Record} {out : Record}
    (h : aggregateEpisodeResults (first :: rest) = .ok out)
    {k : String} (hk : k ∉ first.map Prod.fst) :
    assocGet out k = none := by
  rw [aggregateEpisodeResults] at h
  exact buildAgg_get_of_not_mem _ first [] out h k hk

theorem aggregate_key_ok {first : Record} {rest : List Record} {out : Record}
    (h : aggregateEpisodeResults (first :: rest) = .ok out)
    {k : String} {v : MVal} (hmem : (k, v) ∈ first) :
    ∃ r, aggKey k v (first :: rest) = .ok r := by
  rw [aggregateEpisodeResults] at h
  exact buildAgg_key_ok _ first [] out h k v hmem

theorem exceptBind_ok {ε α β : Type} (a : α) (f : α → Except ε β) :
    (Except.ok a >>= f) = f a := rfl

theorem exceptBind_error {ε α β : Type} (e : ε) (f : α → Except ε β) :
    ((Except.error e : Except ε α) >>= f) = .error e := rfl

theorem mapExcept_times (k0 : String) :
    ∀ (xs : List Record) (qs : List ℚ),
    xs.map (fun ep => assocGet ep k0) = qs.map (fun q => some (MVal.num q)) →
    mapExcept (fun ep => asNum ((assocGet ep k0).getD (.num 0))) xs = .ok qs := by
  intro xs
  induction xs with
  | nil =>
    intro qs h
    cases qs with
    | nil => rfl
    | cons q qs => simp at h
  | cons x rest ih =>
    intro qs h
    cases qs with
    | nil => simp at h
    | cons q qrest =>
      simp only [List.map_cons, List.cons.injEq] at h
      have hx : asNum ((assocGet x k0).getD (MVal.num 0)) = Except.ok q := by
        rw [h.1]; rfl
      simp only [mapExcept, hx, exceptBind_ok]
      rw [ih qrest h.2]
      rfl

theorem map_getD_of_map_eq {α β : Type} (f : α → Option MVal) (g : β → MVal)
    (d : MVal) :
    ∀ (xs : List α) (ys : List β),
    xs.map f = ys.map (fun y => some (g y)) →
    xs.map (fun x => (f x).getD d) = ys.map g := by
  intro xs
  induction xs with
  | nil =>
    intro ys h
    cases ys with
    | nil => rfl
    | cons y ys => simp at h
  | cons x rest ih =>
    intro ys h
    cases ys with
    | nil => simp at h
    | cons y yrest =>
      simp only [List.map_cons, List.cons.injEq] at h
      simp [h.1, ih yrest h.2]

theorem trAgentMean_aux (a : ℕ) :
    ∀ (ms : List (List (ℕ × MVal))),
    (∀ m ∈ ms, ∀ p ∈ m, ∃ q, p.2 = MVal.num q) →
    mapExcept (fun r => do
      let d ← asDict r
      asNum ((assocGet d a).getD (.num 0))) (ms.map MVal.dict) =
      .ok (ms.map (fun m => trValD m a)) := by
  intro ms
  induction ms with
  | nil => intro _; rfl
  | cons m rest ih =>
    intro hnum
    have hm : ∀ p ∈ m, ∃ q, p.2 = MVal.num q :=
      hnum m (List.mem_cons_self _ _)
    have hrest : ∀ m2 ∈ rest, ∀ p ∈ m2, ∃ q, p.2 = MVal.num q :=
      fun m2 h2 => hnum m2 (List.mem_cons_of_mem _ h2)
    have hval : asNum ((assocGet m a).getD (.num 0)) = .ok (trValD m a) := by
      cases hma : assocGet m a with
      | none => simp [trValD, hma, asNum]
      | some x =>
        obtain ⟨q, hq⟩ := hm (a, x) (assocGet_some_mem hma)
        simp only at hq
        subst hq
        simp [trValD, hma, asNum]
    have hhead : (do
          let d ← asDict (MVal.dict m)
          asNum ((assocGet d a).getD (MVal.num 0)) : Except String ℚ) =
        .ok (trValD m a) := by
      simpa [asDict, exceptBind_ok] using hval
    simp only [List.map_cons, mapExcept, hhead, exceptBind_ok]
    rw [ih hrest]
    rfl

theorem trAgentMean_eval (a : ℕ) (ms : List (List (ℕ × MVal)))
    (hnum : ∀ m ∈ ms, ∀ p ∈ m, ∃ q, p.2 = MVal.num q) :
    trAgentMean (ms.map MVal.dict) a =
      .ok (npMean (ms.map (fun m => trValD m a))) := by
  rw [trAgentMean, trAgentMean_aux a ms hnum]
  rfl

theorem mapEntries_eval (g : ℕ → Except String MVal) (h : ℕ → MVal) :
    ∀ (m : List (ℕ × MVal)),
    (∀ a, (assocGet m a).isSome → g a = .ok (h a)) →
    mapEntries g m = .ok (m.map (fun p => (p.1, h p.1))) := by
  intro m
  induction m with
  | nil => intro _; rfl
  | cons p rest ih =>
    intro hg
    have h1 : g p.1 = .ok (h p.1) := hg p.1 (by simp [assocGet])
    have h2 : ∀ a, (assocGet rest a).isSome → g a = .ok (h a) := by
      intro a ha
      refine hg a ?_
      by_cases hk : p.1 = a
      · simp [assocGet, hk]
      · rw [assocGet, if_neg hk]; exact ha
    simp [mapEntries, h1, ih h2, exceptBind_ok]

theorem collectAgentLists_eval (k : String) (a : ℕ) :
    ∀ (eps : List Record) (ms : List (List (ℕ × MVal))),
    eps.map (fun ep => assocGet ep k) = ms.map (fun m => some (MVal.dict m)) →
    (∀ m ∈ ms, ∀ p ∈ m, ∃ l, p.2 = MVal.vlist l) →
    collectAgentLists k a eps = .ok ((ms.map (fun m => agentListD m a)).flatten) := by
  intro eps
  induction eps with
  | nil =>
    intro ms h _
    cases ms with
    | nil => rfl
    | cons m ms => simp at h
  | cons ep rest ih =>
    intro ms h hlists
    cases ms with
    | nil => simp at h
    | cons m mrest =>
      simp only [List.map_cons, List.cons.injEq] at h
      have hm : ∀ p ∈ m, ∃ l, p.2 = MVal.vlist l :=
        hlists m (List.mem_cons_self _ _)
      have hrest : ∀ m2 ∈ mrest, ∀ p ∈ m2, ∃ l, p.2 = MVal.vlist l :=
        fun m2 h2 => hlists m2 (List.mem_cons_of_mem _ h2)
      rw [collectAgentLists, h.1]
      cases hma : assocGet m a with
      | none =>
        simp [pyContains, hma, ih mrest h.2 hrest, agentListD, exceptBind_ok]
      | some x =>
        obtain ⟨l, hl⟩ := hm (a, x) (assocGet_some_mem hma)
        simp only at hl
        subst hl
        simp [pyContains, hma, pySubscript, pyExtendList,
              ih mrest h.2 hrest, agentListD, exceptBind_ok]

theorem concatLists_eval (k : String) :
    ∀ (eps : List Record) (ls : List (List MVal)),
    eps.map (fun ep => assocGet ep k) = ls.map (fun l => some (MVal.vlist l)) →
    concatLists k eps = .ok ls.flatten := by
  intro eps
  induction eps with
  | nil =>
    intro ls h
    cases ls with
    | nil => rfl
    | cons l ls => simp at h
  | cons ep rest ih =>
    intro ls h
    cases ls with
    | nil => simp at h
    | cons l lrest =>
      simp only [List.map_cons, List.cons.injEq] at h
      rw [concatLists, h.1]
      simp [pyExtendList, ih lrest h.2, exceptBind_ok]

theorem aggKey_episode_time (v : MVal) (eps : List Record) (times : List ℚ)
    (h : eps.map (fun ep => assocGet ep "episode_time") =
      times.map (fun q => some (MVal.num q))) :
    aggKey "episode_time" v eps = .ok (some (.num (npMean times))) := by
  simp only [aggKey, reduceIte]
  rw [mapExcept_times _ eps times h]
  rfl

theorem aggKey_total_rewards (v : MVal) (eps : List Record)
    (m0 : List (ℕ × MVal)) (ms' : List (List (ℕ × MVal)))
    (hmap : eps.map (fun ep => assocGet ep "total_rewards") =
      (m0 :: ms').map (fun m => some (MVal.dict m)))
    (hnum : ∀ m ∈ m0 :: ms', ∀ p ∈ m, ∃ q, p.2 = MVal.num q)
    (hne : m0 ≠ []) :
    aggKey "total_rewards" v eps =
      .ok (some (.dict (m0.map (fun p =>
        (p.1, MVal.num (npMean ((m0 :: ms').map (fun m => trValD m p.1)))))))) := by
  have hall : eps.map (fun ep => (assocGet ep "total_rewards").getD (.dict [])) =
      MVal.dict m0 :: ms'.map MVal.dict := by
    have h2 := map_getD_of_map_eq (fun ep => assocGet ep "total_rewards")
      MVal.dict (.dict []) eps (m0 :: ms') hmap
    simpa using h2
  have ht : truthy (MVal.dict m0) = true := by
    cases m0 with
    | nil => exact absurd rfl hne
    | cons p r => rfl
  have hg : ∀ a : ℕ, (do
        let q ← trAgentMean (MVal.dict m0 :: ms'.map MVal.dict) a
        Except.ok (MVal.num q) : Except String MVal) =
      .ok (MVal.num (npMean ((m0 :: ms').map (fun m => trValD m a)))) := by
    intro a
    have he := trAgentMean_eval a (m0 :: ms') hnum
    simp only [List.map_cons] at he
    rw [he]
    rfl
  have hme := mapEntries_eval
    (fun a => do
      let q ← trAgentMean (MVal.dict m0 :: ms'.map MVal.dict) a
      Except.ok (MVal.num q))
    (fun a => MVal.num (npMean ((m0 :: ms').map (fun m => trValD m a))))
    m0 (fun a _ => hg a)
  simp only [aggKey, reduceIte]
  rw [hall]
  simp only [ht, eq_self_iff_true, if_true, asDict, exceptBind_ok]
  rw [hme]
  rfl

theorem aggKey_dict_lists (k : String) (eps : List Record)
    (m : List (ℕ × MVal)) (ms : List (List (ℕ × MVal)))
    (hk1 : k ≠ "episode_time") (hk2 : k ≠ "total_rewards")
    (hmap : eps.map (fun ep => assocGet ep k) =
      ms.map (fun mm => some (MVal.dict mm)))
    (hlists : ∀ mm ∈ ms, ∀ p ∈ mm, ∃ l, p.2 = MVal.vlist l)
    (hall : m.all (fun p => isList p.2) = true) :
    aggKey k (.dict m) eps = .ok (some (.dict (m.map (fun p =>
      (p.1, MVal.vlist ((ms.map (fun mm => agentListD mm p.1)).flatten)))))) := by
  have hg : ∀ a : ℕ, (do
        let l ← collectAgentLists k a eps
        Except.ok (MVal.vlist l) : Except String MVal) =
      .ok (MVal.vlist ((ms.map (fun mm => agentListD mm a)).flatten)) := by
    intro a
    rw [collectAgentLists_eval k a eps ms hmap hlists]
    rfl
  have hme := mapEntries_eval
    (fun a => do
      let l ← collectAgentLists k a eps
      Except.ok (MVal.vlist l))
    (fun a => MVal.vlist ((ms.map (fun mm => agentListD mm a)).flatten))
    m (fun a _ => hg a)
  simp only [aggKey, if_neg hk1, if_neg hk2]
  simp only [hall, eq_self_iff_true, if_true]
  rw [hme]
  rfl

theorem aggKey_flat_list (k : String) (eps : List Record)
    (l0 : List MVal) (ls : List (List MVal))
    (hk1 : k ≠ "episode_time") (hk2 : k ≠ "total_rewards")
    (hmap : eps.map (fun ep => assocGet ep k) =
      ls.map (fun l => some (MVal.vlist l))) :
    aggKey k (.vlist l0) eps = .ok (some (.vlist ls.flatten)) := by
  simp only [aggKey, if_neg hk1, if_neg hk2]
  rw [concatLists_eval k eps ls hmap]
  rfl

theorem aggKey_num (k : String) (q : ℚ) (eps : List Record)
    (hk1 : k ≠ "episode_time") (hk2 : k ≠ "total_rewards") :
    aggKey k (.num q) eps = .ok none := by
  simp only [aggKey, if_neg hk1, if_neg hk2]

theorem aggKey_dict_other (k : String) (eps : List Record)
    (m : List (ℕ × MVal))
    (hk1 : k ≠ "episode_time") (hk2 : k ≠ "total_rewards")
    (hall : m.all (fun p => isList p.2) = false) :
    aggKey k (.dict m) eps = .ok none := by
  simp only [aggKey, if_neg hk1, if_neg hk2]
  simp only [hall, Bool.false_eq_true, if_false]

/-- Claim C5: for every non-empty sequence of evaluation episode records the
aggregator merges per key by key semantics: episode_time becomes the
arithmetic mean across episodes; total_rewards becomes the per-agent
arithmetic mean across episodes; an agent-to-list mapping becomes per-agent
concatenation preserving within-episode order with episodes in input order;
a flat list becomes concatenation in episode input order; any other value
shape is omitted from the aggregate without error. -/
theorem aggregator_key_semantics
    (first : Record) (rest : List Record)
    (hnd : (first.map Prod.fst).Nodup)
    (hok : ∀ kv ∈ first, ∃ r, aggKey kv.1 kv.2 (first :: rest) = Except.ok r) :
    ∃ out, aggregateEpisodeResults (first :: rest) = .ok out ∧
      (∀ times : List ℚ,
        (first :: rest).map (fun ep => assocGet ep "episode_time") =
          times.map (fun q => some (MVal.num q)) →
        assocGet out "episode_time" = some (.num (npMean times))) ∧
      (∀ (m0 : List (ℕ × MVal)) (ms' : List (List (ℕ × MVal))),
        (first :: rest).map (fun ep => assocGet ep "total_rewards") =
          (m0 :: ms').map (fun m => some (MVal.dict m)) →
        (∀ m ∈ m0 :: ms', ∀ p ∈ m, ∃ q, p.2 = MVal.num q) →
        m0 ≠ [] →
        assocGet out "total_rewards" = some (.dict (m0.map (fun p =>
          (p.1, MVal.num (npMean ((m0 :: ms').map (fun m => trValD m p.1)))))))) ∧
      (∀ (k : String) (m : List (ℕ × MVal)) (ms : List (List (ℕ × MVal))),
        k ≠ "episode_time" → k ≠ "total_rewards" →
        assocGet first k = some (.dict m) →
        (first :: rest).map (fun ep => assocGet ep k) =
          ms.map (fun mm => some (MVal.dict mm)) →
        (∀ mm ∈ ms, ∀ p ∈ mm, ∃ l, p.2 = MVal.vlist l) →
        assocGet out k = some (.dict (m.map (fun p =>
          (p.1, MVal.vlist ((ms.map (fun mm => agentListD mm p.1)).flatten)))))) ∧
      (∀ (k : String) (l0 : List MVal) (ls : List (List MVal)),
        k ≠ "episode_time" → k ≠ "total_rewards" →
        assocGet first k = some (.vlist l0) →
        (first :: rest).map (fun ep => assocGet ep k) =
          ls.map (fun l => some (MVal.vlist l)) →
        assocGet out k = some (.vlist ls.flatten)) ∧
      (∀ k : String, k ≠ "episode_time" → k ≠ "total_rewards" →
        ((∃ q, assocGet first k = some (.num q)) ∨
         (∃ m, assocGet first k = some (.dict m) ∧
            m.all (fun p => isList p.2) = false)) →
        assocGet out k = none) := by
  obtain ⟨out, hout⟩ := buildAgg_ok (first :: rest) first [] hok
  have hagg : aggregateEpisodeResults (first :: rest) = .ok out := by
    rw [aggregateEpisodeResults]; exact hout
  refine ⟨out, hagg, ?_, ?_, ?_, ?_, ?_⟩
  · -- episode_time
    intro times hmap
    cases times with
    | nil => simp at hmap
    | cons t ts =>
      have hhead : assocGet first "episode_time" = some (MVal.num t) := by
        have h1 := congrArg (fun l => l.head?) hmap
        simpa using h1
      have hlk := aggregate_lookup hagg (assocGet_some_mem hhead) hnd
      rw [aggKey_episode_time (MVal.num t) (first :: rest) (t :: ts) hmap] at hlk
      exact (Except.ok.inj hlk).symm
  · -- total_rewards
    intro m0 ms' hmap hnum hne
    have hhead : assocGet first "total_rewards" = some (MVal.dict m0) := by
      have h1 := congrArg (fun l => l.head?) hmap
      simpa using h1
    have hlk := aggregate_lookup hagg (assocGet_some_mem hhead) hnd
    rw [aggKey_total_rewards (MVal.dict m0) (first :: rest) m0 ms' hmap hnum hne] at hlk
    exact (Except.ok.inj hlk).symm
  · -- agent-keyed list metrics
    intro k m ms hk1 hk2 hfirst hmap hlists
    cases ms with
    | nil => simp at hmap
    | cons mm0 msr =>
      have hhead : assocGet first k = some (MVal.dict mm0) := by
        have h1 := congrArg (fun l => l.head?) hmap
        simpa using h1
      have hmm : mm0 = m := by
        rw [hfirst] at hhead
        exact (MVal.dict.inj (Option.some.inj hhead)).symm
      subst hmm
      have hall : mm0.all (fun p => isList p.2) = true := by
        rw [List.all_eq_true]
        intro p hp
        obtain ⟨l, hl⟩ := hlists mm0 (List.mem_cons_self _ _) p hp
        rw [hl]; rfl
      have hlk := aggregate_lookup hagg (assocGet_some_mem hfirst) hnd
      rw [aggKey_dict_lists k (first :: rest) mm0 (mm0 :: msr) hk1 hk2 hmap hlists hall] at hlk
      exact (Except.ok.inj hlk).symm
  · -- flat lists
    intro k l0 ls hk1 hk2 hfirst hmap
    have hlk := aggregate_lookup hagg (assocGet_some_mem hfirst) hnd
    rw [aggKey_flat_list k (first :: rest) l0 ls hk1 hk2 hmap] at hlk
    exact (Except.ok.inj hlk).symm
  · -- anything else is omitted
    intro k hk1 hk2 hcase
    rcases hcase with ⟨q, hq⟩ | ⟨m, hm, hall⟩
    · have hlk := aggregate_lookup hagg (assocGet_some_mem hq) hnd
      rw [aggKey_num k q (first :: rest) hk1 hk2] at hlk
      exact (Except.ok.inj hlk).symm
    · have hlk := aggregate_lookup hagg (assocGet_some_mem hm) hnd
      rw [aggKey_dict_other k (first :: rest) m hk1 hk2 hall] at hlk
      exact (Except.ok.inj hlk).symm

theorem aggregator_key_semantics_witness :
    (aggregateEpisodeResults
      [[("episode_time", MVal.num 2), ("total_rewards", MVal.dict [(0, MVal.num 2)]),
        ("beliefs", MVal.dict [(0, MVal.vlist [MVal.num 1])]),
        ("true_states", MVal.vlist [MVal.num 0]), ("weird", MVal.num 7)],
       [("episode_time", MVal.num 4), ("total_rewards", MVal.dict [(0, MVal.num 4)]),
        ("beliefs", MVal.dict [(0, MVal.vlist [MVal.num 3])]),
        ("true_states", MVal.vlist [MVal.num 1]), ("weird", MVal.num 8)],
       [("episode_time", MVal.num 6), ("total_rewards", MVal.dict [(0, MVal.num 6)]),
        ("beliefs", MVal.dict [(0, MVal.vlist [MVal.num 5])]),
        ("true_states", MVal.vlist [MVal.num 0]), ("weird", MVal.num 9)]]).map
      (fun out => (assocGet out "episode_time", assocGet out "total_rewards",
                   assocGet out "beliefs", assocGet out "true_states",
                   assocGet out "weird")) =
    .ok (some (.num 4), some (.dict [(0, .num 4)]),
         some (.dict [(0, .vlist [.num 1, .num 3, .num 5])]),
         some (.vlist [.num 0, .num 1, .num 0]), none) := by
  obtain ⟨out, hagg, h1, h2, h3, h4, h5⟩ :=
    aggregator_key_semantics
      [("episode_time", MVal.num 2), ("total_rewards", MVal.dict [(0, MVal.num 2)]),
       ("beliefs", MVal.dict [(0, MVal.vlist [MVal.num 1])]),
       ("true_states", MVal.vlist [MVal.num 0]), ("weird", MVal.num 7)]
      [[("episode_time", MVal.num 4), ("total_rewards", MVal.dict [(0, MVal.num 4)]),
        ("beliefs", MVal.dict [(0, MVal.vlist [MVal.num 3])]),
        ("true_states", MVal.vlist [MVal.num 1]), ("weird", MVal.num 8)],
       [("episode_time", MVal.num 6), ("total_rewards", MVal.dict [(0, MVal.num 6)]),
        ("beliefs", MVal.dict [(0, MVal.vlist [MVal.num 5])]),
        ("true_states", MVal.vlist [MVal.num 0]), ("weird", MVal.num 9)]]
      (by decide)
      (by
        intro kv hkv
        simp only [List.mem_cons, List.not_mem_nil, or_false] at hkv
        rcases hkv with rfl | rfl | rfl | rfl | rfl <;> exact ⟨_, rfl⟩)
  rw [hagg]
  have e1 := h1 [2, 4, 6] rfl
  have e2 := h2 [(0, MVal.num 2)] [[(0, MVal.num 4)], [(0, MVal.num 6)]] rfl
    (by
      intro m hm
      simp only [List.mem_cons, List.not_mem_nil, or_false] at hm
      rcases hm with rfl | rfl | rfl <;>
        (intro p hp
         simp only [List.mem_cons, List.not_mem_nil, or_false] at hp
         rcases hp with rfl
         exact ⟨_, rfl⟩))
    (List.cons_ne_nil _ _)
  have e3 := h3 "beliefs" [(0, MVal.vlist [MVal.num 1])]
    [[(0, MVal.vlist [MVal.num 1])], [(0, MVal.vlist [MVal.num 3])],
     [(0, MVal.vlist [MVal.num 5])]]
    (by decide) (by decide) rfl rfl
    (by
      intro mm hmm
      simp only [List.mem_cons, List.not_mem_nil, or_false] at hmm
      rcases hmm with rfl | rfl | rfl <;>
        (intro p hp
         simp only [List.mem_cons, List.not_mem_nil, or_false] at hp
         rcases hp with rfl
         exact ⟨_, rfl⟩))
  have e4 := h4 "true_states" [MVal.num 0]
    [[MVal.num 0], [MVal.num 1], [MVal.num 0]] (by decide) (by decide) rfl rfl
  have e5 := h5 "weird" (by decide) (by decide) (Or.inl ⟨7, rfl⟩)
  have hm1 : npMean [2, 4, 6] = 4 := by norm_num [npMean]
  have hm2 : npMean [(2 : ℚ), 4, 6] = 4 := hm1
  rw [hm1] at e1
  have e2s : assocGet out "total_rewards" = some (.dict [(0, .num 4)]) := by
    rw [e2]
    norm_num [trValD, assocGet, npMean]
  have e3s : assocGet out "beliefs" =
      some (.dict [(0, .vlist [.num 1, .num 3, .num 5])]) := by
    rw [e3]
    rfl
  simp only [Except.map, e1, e2s, e3s, e4, e5]
  rfl

/-- Claim C10: the aggregator output key set is determined solely by the
first episode record, so a metric key appearing only in a later episode is
entirely absent from the aggregate; and in the per-agent mean of
total_rewards, an episode whose mapping lacks an agent entry contributes 0
to that agent mean (the mean divides by the number of episodes) rather than
being skipped. -/
theorem aggregator_first_episode_keys_and_zero_default
    (first : Record) (rest : List Record) (out : Record)
    (hagg : aggregateEpisodeResults (first :: rest) = .ok out) :
    (∀ k, k ∉ first.map Prod.fst → assocGet out k = none) ∧
    ((first.map Prod.fst).Nodup →
      ∀ (m0 : List (ℕ × MVal)) (ms' : List (List (ℕ × MVal))) (a : ℕ),
        (first :: rest).map (fun ep => assocGet ep "total_rewards") =
          (m0 :: ms').map (fun m => some (MVal.dict m)) →
        (∀ m ∈ m0 :: ms', ∀ p ∈ m, ∃ q, p.2 = MVal.num q) →
        (assocGet m0 a).isSome →
        ∃ outm, assocGet out "total_rewards" = some (.dict outm) ∧
          assocGet outm a = some (.num
            (((m0 :: ms').map (fun m => trValD m a)).sum /
              (((m0 :: ms').length : ℚ))))) := by
  constructor
  · intro k hk
    exact aggregate_absent hagg hk
  · intro hnd m0 ms' a hmap hnum hsome
    have hne : m0 ≠ [] := by
      intro he
      rw [he] at hsome
      simp [assocGet] at hsome
    have hhead : assocGet first "total_rewards" = some (MVal.dict m0) := by
      have h1 := congrArg (fun l => l.head?) hmap
      simpa using h1
    have hlk := aggregate_lookup hagg (assocGet_some_mem hhead) hnd
    rw [aggKey_total_rewards (MVal.dict m0) (first :: rest) m0 ms' hmap hnum hne] at hlk
    refine ⟨m0.map (fun p =>
      (p.1, MVal.num (npMean ((m0 :: ms').map (fun m => trValD m p.1))))), ?_, ?_⟩
    · exact (Except.ok.inj hlk).symm
    · have hmk := assocGet_map_keys
        (fun b => MVal.num (npMean ((m0 :: ms').map (fun m => trValD m b)))) m0 a
      rw [hmk]
      cases hma : assocGet m0 a with
      | none => rw [hma] at hsome; simp at hsome
      | some x =>
        simp only [Option.map_some']
        rw [npMean, List.length_map]

theorem aggregator_first_episode_keys_witness :
    (aggregateEpisodeResults
      [[("total_rewards", MVal.dict [(0, MVal.num 2)]), ("loss", MVal.vlist [MVal.num 9])],
       [("total_rewards", MVal.dict []), ("extra", MVal.vlist [MVal.num 1])]] =
      .ok [("total_rewards", MVal.dict [(0, MVal.num 1)]), ("loss", MVal.vlist [MVal.num 9])]) ∧
    assocGet [("total_rewards", MVal.dict [(0, MVal.num 1)]),
              ("loss", MVal.vlist [MVal.num 9])] "extra" = (none : Option MVal) ∧
    assocGet [("total_rewards", MVal.dict [(0, MVal.num 1)]),
              ("loss", MVal.vlist [MVal.num 9])] "total_rewards" =
      some (MVal.dict [(0, MVal.num 1)]) := by
  have htr : aggKey "total_rewards" (MVal.dict [(0, MVal.num 2)])
      [[("total_rewards", MVal.dict [(0, MVal.num 2)]), ("loss", MVal.vlist [MVal.num 9])],
       [("total_rewards", MVal.dict []), ("extra", MVal.vlist [MVal.num 1])]] =
      .ok (some (.dict [(0, .num 1)])) := by
    have h := aggKey_total_rewards (MVal.dict [(0, MVal.num 2)])
      [[("total_rewards", MVal.dict [(0, MVal.num 2)]), ("loss", MVal.vlist [MVal.num 9])],
       [("total_rewards", MVal.dict []), ("extra", MVal.vlist [MVal.num 1])]]
      [(0, MVal.num 2)] [[]] rfl
      (by
        intro m hm
        simp only [List.mem_cons, List.not_mem_nil, or_false] at hm
        rcases hm with rfl | rfl
        · intro p hp
          simp only [List.mem_cons, List.not_mem_nil, or_false] at hp
          rcases hp with rfl
          exact ⟨2, rfl⟩
        · intro p hp
          simp at hp)
      (List.cons_ne_nil _ _)
    rw [h]
    norm_num [trValD, assocGet, npMean]
  have hloss : aggKey "loss" (MVal.vlist [MVal.num 9])
      [[("total_rewards", MVal.dict [(0, MVal.num 2)]), ("loss", MVal.vlist [MVal.num 9])],
       [("total_rewards", MVal.dict []), ("extra", MVal.vlist [MVal.num 1])]] =
      .ok (some (.vlist [MVal.num 9])) := rfl
  have hagg : aggregateEpisodeResults
      [[("total_rewards", MVal.dict [(0, MVal.num 2)]), ("loss", MVal.vlist [MVal.num 9])],
       [("total_rewards", MVal.dict []), ("extra", MVal.vlist [MVal.num 1])]] =
      .ok [("total_rewards", MVal.dict [(0, MVal.num 1)]), ("loss", MVal.vlist [MVal.num 9])] := by
    simp only [aggregateEpisodeResults, buildAgg, htr, hloss]
    rfl
  obtain ⟨hA, hB⟩ := aggregator_first_episode_keys_and_zero_default
    [("total_rewards", MVal.dict [(0, MVal.num 2)]), ("loss", MVal.vlist [MVal.num 9])]
    [[("total_rewards", MVal.dict []), ("extra", MVal.vlist [MVal.num 1])]]
    [("total_rewards", MVal.dict [(0, MVal.num 1)]), ("loss", MVal.vlist [MVal.num 9])]
    hagg
  refine ⟨hagg, hA "extra" (by decide), ?_⟩
  obtain ⟨outm, h1, h2⟩ := hB (by decide) [(0, MVal.num 2)] [[]] 0 rfl
    (by
      intro m hm
      simp only [List.mem_cons, List.not_mem_nil, or_false] at hm
      rcases hm with rfl | rfl
      · intro p hp
        simp only [List.mem_cons, List.not_mem_nil, or_false] at hp
        rcases hp with rfl
        exact ⟨2, rfl⟩
      · intro p hp
        simp at hp)
    rfl
  have h2v : assocGet outm 0 = some (MVal.num 1) := by
    rw [h2]
    norm_num [trValD, assocGet]
  have houtm : outm = [(0, MVal.num 1)] := by
    have hc : assocGet
        [("total_rewards", MVal.dict [(0, MVal.num 1)]), ("loss", MVal.vlist [MVal.num 9])]
        "total_rewards" = some (MVal.dict [(0, MVal.num 1)]) := rfl
    rw [h1] at hc
    exact MVal.dict.inj (Option.some.inj hc)
  rw [houtm] at h1
  exact h1


/-- Claim C6: in a discrete-action strategic-experimentation environment the
allocations entry of step info maps each agent to the probability mass on
action index 1, overwriting any allocation the environment computed; an
agent whose probability vector has fewer than 2 entries gets 0.5; the raw
discrete action is never used. -/
theorem discrete_allocations_override
    (infoAllocations : Option (List (ℕ × ℚ))) (actions actions2 : List (ℕ × ℚ))
    (actionProbs : List (ℕ × List ℚ)) (a : ℕ) (probs : List ℚ)
    (hmem : (a, probs) ∈ actionProbs)
    (hnd : (actionProbs.map Prod.fst).Nodup) :
    stepAllocations true false infoAllocations actions actionProbs =
      some (discreteAllocations actionProbs) ∧
    assocGet (discreteAllocations actionProbs) a =
      some (if h : 2 ≤ probs.length then probs.get ⟨1, by omega⟩ else 1/2) ∧
    stepAllocations true false infoAllocations actions actionProbs =
      stepAllocations true false none actions2 actionProbs := by
  refine ⟨rfl, ?_, rfl⟩
  rw [discreteAllocations]
  have hmap := assocGet_map_pair
    (fun p => match p.2 with
      | _ :: p1 :: _ => p1
      | _ => (1 : ℚ)/2) hmem hnd
  cases probs with
  | nil =>
    rw [hmap]
    have h2 : ¬ (2 : ℕ) ≤ ([] : List ℚ).length := by simp
    rw [dif_neg h2]
  | cons p0 t =>
    cases t with
    | nil =>
      rw [hmap]
      have h2 : ¬ (2 : ℕ) ≤ [p0].length := by simp
      rw [dif_neg h2]
    | cons p1 t2 =>
      rw [hmap]
      have h2 : (2 : ℕ) ≤ (p0 :: p1 :: t2).length := by simp
      rw [dif_pos h2]
      rfl

theorem discrete_allocations_override_witness :
    ((0, [(3 : ℚ)/10, 7/10]) ∈ [((0 : ℕ), [(3 : ℚ)/10, 7/10]), (1, [1])] ∧
      ([((0 : ℕ), [(3 : ℚ)/10, 7/10]), (1, [1])].map Prod.fst).Nodup) ∧
    (stepAllocations true false (some [(0, (9 : ℚ)/10)]) [(0, 0)]
        [((0 : ℕ), [(3 : ℚ)/10, 7/10]), (1, [1])] =
      some (discreteAllocations [((0 : ℕ), [(3 : ℚ)/10, 7/10]), (1, [1])])) ∧
    assocGet (discreteAllocations [((0 : ℕ), [(3 : ℚ)/10, 7/10]), (1, [1])]) 0 =
      some (7/10) ∧
    assocGet (discreteAllocations [((0 : ℕ), [(3 : ℚ)/10, 7/10]), (1, [1])]) 1 =
      some (1/2) := by
  have h0 := discrete_allocations_override (some [(0, (9 : ℚ)/10)]) [(0, 0)] []
    [((0 : ℕ), [(3 : ℚ)/10, 7/10]), (1, [1])] 0 [(3 : ℚ)/10, 7/10]
    (by simp) (by decide)
  have h1 := discrete_allocations_override (some [(0, (9 : ℚ)/10)]) [(0, 0)] []
    [((0 : ℕ), [(3 : ℚ)/10, 7/10]), (1, [1])] 1 [1]
    (by simp) (by decide)
  refine ⟨⟨by simp, by decide⟩, h0.1, ?_, ?_⟩
  · have := h0.2.1
    rw [this]
    norm_num
  · have := h1.2.1
    rw [this]
    norm_num

/-- Claim C8: the claim states that over every sequence of training
episodes the seen-true-state set grows monotonically, that a task is
registered at most once per distinct true-state value per agent, and that
INIT assigns the realized true state via set_task alone. The last part
holds, but the trainer re-creates all agents at the start of every episode
(trainer.py line 307), so the seen set restarts from empty each episode:
running two episodes that both realize true state 5 and both end with done
registers a task for state 5 twice, and the seen set, equal to the
singleton 5 at the end of episode one, is empty again when episode two
begins. This theorem evaluates the embedded code at that failing input. -/
theorem si_reinit_breaks_seen_set :
    freshSIAgent.seenTrueStates = [] ∧
    (setupSIForTraining 5 freshSIAgent).2 =
      [SIEvent.setBeliefTask 5, SIEvent.setPolicyTask 5] ∧
    (trainingRunSI [(5, some 5), (5, some 5)]).map
      (fun p => p.1.seenTrueStates) = [[5], [5]] ∧
    (trainingRunSI [(5, some 5), (5, some 5)]).map
      (fun p => p.2.count SIEvent.registerBelief) = [1, 1] ∧
    (trainingRunSI [(5, some 5), (5, some 5)]).map
      (fun p => p.2.count SIEvent.registerPolicy) = [1, 1] ∧
    (runEpisodeSI (5, some 5)).2 =
      [SIEvent.setBeliefTask 5, SIEvent.setPolicyTask 5,
       SIEvent.registerBelief, SIEvent.registerPolicy,
       SIEvent.setBeliefTask 5, SIEvent.setPolicyTask 5,
       SIEvent.archiveTrackers 5] := by
  refine ⟨rfl, rfl, ?_, ?_, ?_, rfl⟩ <;> decide

/-- Claim C2: in the continuous (strategic-experimentation) observation
variant, a missing background_increment field in either the current or the
next observation record makes the per-agent state update raise a fatal
ObservationProcessingError, and when both increments are present the
extracted signals are exactly the increments, so the absolute
background_signal value (universally quantified here) is never substituted. -/
theorem continuous_obs_missing_increment
    (cfg : TrainCfg) (agent : Agent) (buffer : List Transition)
    (obs nextObs : Obs) (action : ℚ) (reward : RewardVal)
    (step : ℕ) (training hasBuffer : Bool) (bs : ℚ)
    (hsig : obs.signal = none) (hbg : obs.backgroundSignal = some bs) :
    ((obs.backgroundIncrement = none ∨ nextObs.backgroundIncrement = none) →
      updateAgentState cfg agent buffer obs nextObs action reward step
        training hasBuffer = .error .observationProcessing) ∧
    (∀ i ni, obs.backgroundIncrement = some i →
      nextObs.backgroundIncrement = some ni →
      ∃ ex, extractSignals obs nextObs = .ok ex ∧
        ex.signal = i ∧ ex.nextSignal = ni) := by
  constructor
  · intro hmiss
    have hext : extractSignals obs nextObs = .error .observationProcessing := by
      rcases hmiss with h | h
      · simp only [extractSignals, hsig, hbg, h]
      · simp only [extractSignals, hsig, hbg, h]
        cases hi : obs.backgroundIncrement <;> rfl
    simp only [updateAgentState, hext]
  · intro i ni hi hni
    cases hres : extractSignals obs nextObs with
    | error e =>
      exfalso
      revert hres
      simp only [extractSignals, hsig, hbg, hi, hni]
      intro hres
      cases hres
    | ok ex =>
      refine ⟨ex, rfl, ?_, ?_⟩ <;>
      · simp only [extractSignals, hsig, hbg, hi, hni] at hres
        rw [← Except.ok.inj hres]

theorem continuous_obs_missing_increment_witness :
    (updateAgentState (probeCfg false 5 1) (probeAgent false none) []
        (stratObs (some 3) none) (stratObs (some 4) (some 8)) 0 (.rfloat 0) 0
        true true = .error .observationProcessing) ∧
    (extractSignals (stratObs (some 3) (some 7)) (stratObs (some 4) (some 8))).map
      (fun ex => (ex.signal, ex.nextSignal)) = .ok (7, 8) := by
  constructor
  · exact (continuous_obs_missing_increment (probeCfg false 5 1)
      (probeAgent false none) [] (stratObs (some 3) none)
      (stratObs (some 4) (some 8)) 0 (.rfloat 0) 0 true true 3 rfl rfl).1
      (Or.inl rfl)
  · obtain ⟨ex, hex, h1, h2⟩ := (continuous_obs_missing_increment
      (probeCfg false 5 1) (probeAgent false none) []
      (stratObs (some 3) (some 7)) (stratObs (some 4) (some 8)) 0 (.rfloat 0) 0
      true true 3 rfl rfl).2 7 8 rfl rfl
    rw [hex]
    simp only [Except.map, h1, h2]

theorem extractSignals_ne_insufficient (obs nextObs : Obs) :
    extractSignals obs nextObs ≠ .error .insufficientData := by
  cases hs : obs.signal with
  | some s =>
    cases hns : nextObs.signal <;> cases hna : obs.neighborActions <;>
      cases hnna : nextObs.neighborActions <;>
      simp [extractSignals, hs, hns, hna, hnna]
  | none =>
    cases hbg : obs.backgroundSignal with
    | none => simp [extractSignals, hs, hbg]
    | some bs =>
      cases hi : obs.backgroundIncrement <;>
        cases hni : nextObs.backgroundIncrement <;>
        simp [extractSignals, hs, hbg, hi, hni]

theorem latentRewardArg_ne_insufficient (reward : RewardVal) :
    latentRewardArg reward ≠ .error .insufficientData := by
  cases reward <;> simp [latentRewardArg]

theorem storeAndMaybeUpdate_spec (cfg : TrainCfg) (buffer : List Transition)
    (t : Transition) (step : ℕ) (events : List CallEvent) (agent1 : Agent)
    (hupd : CallEvent.agentUpdateCall ∉ events)
    (hsam : CallEvent.bufferSampleCall cfg.batchSize ∉ events) :
    ∃ out, storeAndMaybeUpdate cfg buffer t step events agent1 = .ok out ∧
      (CallEvent.agentUpdateCall ∈ out.events ↔
        (cfg.batchSize < out.buffer.length ∧ step % cfg.updateInterval = 0)) ∧
      (CallEvent.bufferSampleCall cfg.batchSize ∈ out.events ↔
        (cfg.batchSize < out.buffer.length ∧ step % cfg.updateInterval = 0)) ∧
      ((cfg.batchSize < out.buffer.length ∧ step % cfg.updateInterval = 0) →
        ∃ batch, bufferSample out.buffer cfg.batchSize = .ok batch ∧
          batch.length = cfg.batchSize) := by
  simp only [storeAndMaybeUpdate]
  by_cases hcond : cfg.batchSize < (bufferStore cfg.bufferCapacity buffer t).length ∧
      step % cfg.updateInterval = 0
  · rw [if_pos hcond]
    have hsample : bufferSample (bufferStore cfg.bufferCapacity buffer t)
        cfg.batchSize =
        .ok ((bufferStore cfg.bufferCapacity buffer t).take cfg.batchSize) := by
      rw [bufferSample, if_neg (not_le.mpr hcond.1)]
    rw [hsample]
    refine ⟨_, rfl, ?_, ?_, ?_⟩
    · simpa [List.mem_append] using hcond
    · simpa [List.mem_append] using hcond
    · intro _
      exact ⟨(bufferStore cfg.bufferCapacity buffer t).take cfg.batchSize,
        hsample, by rw [List.length_take]; omega⟩
  · rw [if_neg hcond]
    refine ⟨_, rfl, ?_, ?_, ?_⟩
    · constructor
      · intro hmem
        exfalso
        rcases List.mem_append.mp hmem with h | h
        · exact hupd h
        · simp at h
      · intro h
        exact absurd h hcond
    · constructor
      · intro hmem
        exfalso
        rcases List.mem_append.mp hmem with h | h
        · exact hsam h
        · simp at h
      · intro h
        exact absurd h hcond
    · intro h
      exact absurd h hcond

/-- Claim C3: during training, for every agent and every step, a batch is
sampled and the agent parameter update invoked iff the post-store replay
buffer length is strictly greater than batch_size and step mod
update_interval equals 0; and under this strict precondition the
insufficient-data sampling failure is unreachable from the simulation loop
(the buffer itself is modelled from the spec; the positivity hypothesis on
update_interval matches Python, where a zero interval would raise a
ZeroDivisionError rather than sample). -/
theorem buffer_update_iff_and_no_insufficient
    (cfg : TrainCfg) (agent : Agent) (buffer : List Transition)
    (obs nextObs : Obs) (action : ℚ) (reward : RewardVal) (step : ℕ)
    (ex : ExtractedObs) (r : ℚ)
    (hext : extractSignals obs nextObs = .ok ex)
    (hrew : latentRewardArg reward = .ok r)
    (_hui : 0 < cfg.updateInterval) :
    (∀ (cfg2 : TrainCfg) (agent2 : Agent) (buffer2 : List Transition)
       (obs2 nextObs2 : Obs) (action2 : ℚ) (reward2 : RewardVal) (step2 : ℕ)
       (hasBuffer2 : Bool),
       updateAgentState cfg2 agent2 buffer2 obs2 nextObs2 action2 reward2
         step2 true hasBuffer2 ≠ .error .insufficientData) ∧
    ∃ out, updateAgentState cfg agent buffer obs nextObs action reward step
        true true = .ok out ∧
      (CallEvent.agentUpdateCall ∈ out.events ↔
        (cfg.batchSize < out.buffer.length ∧ step % cfg.updateInterval = 0)) ∧
      (CallEvent.bufferSampleCall cfg.batchSize ∈ out.events ↔
        (cfg.batchSize < out.buffer.length ∧ step % cfg.updateInterval = 0)) ∧
      ((cfg.batchSize < out.buffer.length ∧ step % cfg.updateInterval = 0) →
        ∃ batch, bufferSample out.buffer cfg.batchSize = .ok batch ∧
          batch.length = cfg.batchSize) := by
  constructor
  · intro cfg2 agent2 buffer2 obs2 nextObs2 action2 reward2 step2 hasBuffer2 hcontra
    cases hE : extractSignals obs2 nextObs2 with
    | error e =>
      simp only [updateAgentState, hE, Except.error.injEq] at hcontra
      rw [hcontra] at hE
      exact extractSignals_ne_insufficient obs2 nextObs2 hE
    | ok ex2 =>
      cases hR : latentRewardArg reward2 with
      | error e =>
        simp only [updateAgentState, hE, hR, Except.error.injEq] at hcontra
        rw [hcontra] at hR
        exact latentRewardArg_ne_insufficient reward2 hR
      | ok r2 =>
        cases hasBuffer2 with
        | false =>
          simp only [updateAgentState, hE, hR, Bool.and_false,
            Bool.false_eq_true, reduceIte, reduceCtorEq] at hcontra
        | true =>
          simp only [updateAgentState, hE, hR, Bool.and_self, reduceIte,
            if_true] at hcontra
          cases hq : cfg2.continuousActions && agent2.continuousActions with
          | false =>
            simp only [hq, Bool.false_eq_true, reduceIte] at hcontra
            simp only [storeAndMaybeUpdate] at hcontra
            split at hcontra
            · rename_i hcond
              simp only [bufferSample, if_neg (not_le.mpr hcond.1),
                reduceCtorEq] at hcontra
            · simp at hcontra
          | true =>
            simp only [hq, reduceIte, if_true] at hcontra
            simp only [storeAndMaybeUpdate] at hcontra
            split at hcontra
            · rename_i hcond
              simp only [bufferSample, if_neg (not_le.mpr hcond.1),
                reduceCtorEq] at hcontra
            · simp at hcontra
  · simp only [updateAgentState, hext, hrew, Bool.and_self, reduceIte,
      if_true]
    cases hrq : cfg.continuousActions && agent.continuousActions with
    | false =>
      simp only [hrq, Bool.false_eq_true, reduceIte]
      exact storeAndMaybeUpdate_spec cfg buffer _ step _ _
        (by simp) (by simp)
    | true =>
      simp only [hrq, reduceIte, if_true]
      exact storeAndMaybeUpdate_spec cfg buffer _ step _ _
        (by simp) (by simp)

theorem buffer_update_iff_witness :
    extractSignals (socialObs 1) (socialObs 2) = .ok ⟨1, 2, [], []⟩ ∧
    latentRewardArg (.rfloat 3) = .ok 3 ∧
    0 < (probeCfg false 0 1).updateInterval ∧
    updateAgentState (probeCfg false 0 1) (probeAgent false none) []
      (socialObs 1) (socialObs 2) 0 (.rfloat 3) 0 true true ≠
      .error .insufficientData ∧
    (updateAgentState (probeCfg false 0 1) (probeAgent false none) []
        (socialObs 1) (socialObs 2) 0 (.rfloat 3) 0 true true).map
      (fun o => (o.events.count CallEvent.agentUpdateCall,
                 o.events.count (CallEvent.bufferSampleCall 0),
                 o.buffer.length)) = .ok (1, 1, 1) := by
  obtain ⟨hne, _out, _hout, _h1, _h2, _h3⟩ := buffer_update_iff_and_no_insufficient
    (probeCfg false 0 1) (probeAgent false none) [] (socialObs 1) (socialObs 2)
    0 (.rfloat 3) 0 ⟨1, 2, [], []⟩ 3 rfl rfl (by decide)
  exact ⟨rfl, rfl, by decide, hne _ _ _ _ _ _ _ _ _, by decide⟩

/-- Claim C4 (code bug in the source): the reward consumed at the
latent-inference site is computed as
rewards[i] if isinstance(rewards[i], float) else rewards[i]["total"]
(trainer.py lines 840 to 844), so a bare int reward, which is not a float,
gets subscripted and raises a TypeError, while the same integer wrapped as
a total dict is consumed as its value; the transition-storage site (lines
876 to 880) and the quick_evaluate accumulation site (lines 1066 to 1070)
test isinstance(dict) instead and consume both scalar forms uniformly.
This theorem evaluates the embedded code at the failing input, the bare
integer reward 2. -/
theorem reward_int_scalar_not_uniform :
    latentRewardArg (.rint 2) = .error .typeError ∧
    latentRewardArg (.rdict 2) = .ok 2 ∧
    latentRewardArg (.rfloat 2) = .ok 2 ∧
    storedRewardArg (.rint 2) = 2 ∧
    storedRewardArg (.rdict 2) = 2 ∧
    storedRewardArg (.rfloat 2) = 2 ∧
    (∀ (total q : ℚ) (n : ℤ),
      quickEvalRewardAdd total (.rfloat q) = total + q ∧
      quickEvalRewardAdd total (.rdict q) = total + q ∧
      quickEvalRewardAdd total (.rint n) = total + (n : ℚ)) ∧
    updateAgentState (probeCfg false 5 1) (probeAgent false none) []
      (socialObs 1) (socialObs 2) 0 (.rint 2) 0 true true =
      .error .typeError ∧
    (updateAgentState (probeCfg false 5 1) (probeAgent false none) []
        (socialObs 1) (socialObs 2) 0 (.rdict 2) 0 true true).map
      (fun o => o.buffer.map (fun t => t.reward)) = .ok [2] := by
  refine ⟨rfl, rfl, rfl, by norm_num [storedRewardArg], rfl, rfl,
    fun total q n => ⟨rfl, rfl, rfl⟩, rfl, by decide⟩

/-- Claim C7 (amended): during training with continuous actions, the action
stored in the transition is not the raw sampled action passed in: the
policy is re-queried once more, deterministically, on the agent current
belief and latent, and that allocation is stored; the raw action argument
is irrelevant to the result. However, unlike the original claim, the
re-query happens with gradients enabled: trainer.py line 887 calls
agent.policy outside any torch.no_grad context, so the recorded policy
call carries noGrad = false. -/
theorem requery_stored_action
    (cfg : TrainCfg) (agent : Agent) (buffer : List Transition)
    (obs nextObs : Obs) (action : ℚ) (reward : RewardVal) (step : ℕ)
    (ex : ExtractedObs) (r : ℚ)
    (hext : extractSignals obs nextObs = .ok ex)
    (hrew : latentRewardArg reward = .ok r)
    (hca : cfg.continuousActions = true)
    (hac : agent.continuousActions = true) :
    (∀ action2, updateAgentState cfg agent buffer obs nextObs action2 reward
        step true true =
      updateAgentState cfg agent buffer obs nextObs action reward step
        true true) ∧
    ∃ out, updateAgentState cfg agent buffer obs nextObs action reward step
        true true = .ok out ∧
      out.events.filter isPolicyCallEvent =
        [CallEvent.policyCall out.agent.currentBelief
          out.agent.currentLatent false] ∧
      ∃ t, out.buffer = bufferStore cfg.bufferCapacity buffer t ∧
        out.events.filter isBufferStoreEvent =
          [CallEvent.bufferStoreCall t] ∧
        t.action = (out.agent.policy out.agent.currentBelief
          out.agent.currentLatent).2 := by
  constructor
  · intro action2
    simp only [updateAgentState, hext, hrew, Bool.and_self, reduceIte,
      if_true, hca, hac]
  · simp only [updateAgentState, hext, hrew, Bool.and_self, reduceIte,
      if_true, hca, hac]
    simp only [storeAndMaybeUpdate]
    split
    · rename_i hcond
      simp only [bufferSample, if_neg (not_le.mpr hcond.1)]
      refine ⟨_, rfl, ?_, ⟨_, rfl, ?_, ?_⟩⟩
      · simp [List.filter_append, List.filter, isPolicyCallEvent]
      · simp [List.filter_append, List.filter, isPolicyCallEvent,
          isBufferStoreEvent]
      · simp
    · refine ⟨_, rfl, ?_, ⟨_, rfl, ?_, ?_⟩⟩
      · simp [List.filter_append, List.filter, isPolicyCallEvent]
      · simp [List.filter_append, List.filter, isPolicyCallEvent,
          isBufferStoreEvent]
      · simp

/-- Claim C7 counterexample: at a concrete training step with continuous
actions, the stored action is the re-queried allocation 7 (the raw sampled
action 3 is not stored), but the single policy re-query event carries
noGrad = false: the re-query is not made under a no-gradient context, so
the claim as stated is false at this input. -/
theorem requery_not_no_grad_counterexample :
    (updateAgentState (probeCfg true 5 1) (probeAgent true none) []
        (stratObs (some 0) (some 1)) (stratObs (some 0) (some 2)) 3
        (.rfloat 1) 0 true true).map
      (fun o => (o.events.filter isPolicyCallEvent,
                 o.buffer.map (fun t => t.action))) =
      .ok ([CallEvent.policyCall [5] [9] false], [7]) ∧
    (3 : ℚ) ≠ 7 := ⟨by decide, by decide⟩

theorem requery_stored_action_witness :
    extractSignals (stratObs (some 0) (some 1)) (stratObs (some 0) (some 2)) =
      .ok ⟨1, 2, [], []⟩ ∧
    latentRewardArg (.rfloat 1) = .ok 1 ∧
    updateAgentState (probeCfg true 5 1) (probeAgent true none) []
      (stratObs (some 0) (some 1)) (stratObs (some 0) (some 2)) 0 (.rfloat 1)
      0 true true =
    updateAgentState (probeCfg true 5 1) (probeAgent true none) []
      (stratObs (some 0) (some 1)) (stratObs (some 0) (some 2)) 3 (.rfloat 1)
      0 true true := by
  obtain ⟨hind, _⟩ := requery_stored_action (probeCfg true 5 1)
    (probeAgent true none) [] (stratObs (some 0) (some 1))
    (stratObs (some 0) (some 2)) 3 (.rfloat 1) 0 ⟨1, 2, [], []⟩ 1
    rfl rfl rfl rfl
  exact ⟨rfl, rfl, hind 0⟩

/-- Claim C9 (amended): at every simulation step each agent latent state is
updated exactly once via infer_latent, conditioned on the current encoded
signal, the current encoded neighbor actions and the realized reward; the
fourth argument is the next encoded signal during training, but during
evaluation it is the current encoded signal (trainer.py line 860, with the
source comment saying to use the current signal for latent inference
during evaluation), and the call runs under torch.no_grad exactly when not
training. -/
theorem infer_latent_conditioning
    (cfg : TrainCfg) (agent : Agent) (buffer : List Transition)
    (obs nextObs : Obs) (action : ℚ) (reward : RewardVal) (step : ℕ)
    (training hasBuffer : Bool) (ex : ExtractedObs) (r : ℚ)
    (hext : extractSignals obs nextObs = .ok ex)
    (hrew : latentRewardArg reward = .ok r) :
    ∃ out, updateAgentState cfg agent buffer obs nextObs action reward step
        training hasBuffer = .ok out ∧
      out.events.filter isInferLatentEvent =
        [CallEvent.inferLatentCall
          (encodeObservation ex.signal ex.neighborActions cfg.numAgents
            cfg.numStates cfg.continuousActions
            obs.backgroundIncrement.isSome).1
          (encodeObservation ex.signal ex.neighborActions cfg.numAgents
            cfg.numStates cfg.continuousActions
            obs.backgroundIncrement.isSome).2
          r
          (if training then
            (encodeObservation ex.nextSignal ex.nextNeighborActions
              cfg.numAgents cfg.numStates cfg.continuousActions
              obs.backgroundIncrement.isSome).1
          else
            (encodeObservation ex.signal ex.neighborActions cfg.numAgents
              cfg.numStates cfg.continuousActions
              obs.backgroundIncrement.isSome).1)
          (!training)] := by
  cases training with
  | false =>
    simp only [updateAgentState, hext, hrew, Bool.false_and,
      Bool.false_eq_true, reduceIte]
    refine ⟨_, rfl, ?_⟩
    simp [List.filter_append, List.filter, isInferLatentEvent]
  | true =>
    cases hasBuffer with
    | false =>
      simp only [updateAgentState, hext, hrew, Bool.and_false,
        Bool.false_eq_true, reduceIte, if_true]
      refine ⟨_, rfl, ?_⟩
      simp [List.filter_append, List.filter, isInferLatentEvent]
    | true =>
      simp only [updateAgentState, hext, hrew, Bool.and_self, reduceIte,
        if_true]
      cases hrq : cfg.continuousActions && agent.continuousActions with
      | false =>
        simp only [hrq, Bool.false_eq_true, reduceIte]
        simp only [storeAndMaybeUpdate]
        split
        · rename_i hcond
          simp only [bufferSample, if_neg (not_le.mpr hcond.1)]
          refine ⟨_, rfl, ?_⟩
          simp [List.filter_append, List.filter, isInferLatentEvent]
        · refine ⟨_, rfl, ?_⟩
          simp [List.filter_append, List.filter, isInferLatentEvent]
      | true =>
        simp only [hrq, reduceIte, if_true]
        simp only [storeAndMaybeUpdate]
        split
        · rename_i hcond
          simp only [bufferSample, if_neg (not_le.mpr hcond.1)]
          refine ⟨_, rfl, ?_⟩
          simp [List.filter_append, List.filter, isInferLatentEvent,
            isPolicyCallEvent]
        · refine ⟨_, rfl, ?_⟩
          simp [List.filter_append, List.filter, isInferLatentEvent,
            isPolicyCallEvent]

/-- Claim C9 counterexample: in evaluation mode, at a concrete step whose
current and next observations carry different signals (1 and 2), the single
infer_latent call receives as its fourth argument the encoding of the
CURRENT observation signal 1, not the encoding of the following
observation signal 2, so the claim that both training and evaluation
condition the latent update on the next encoded signal is false at this
input. -/
theorem infer_latent_eval_signal_counterexample :
    (updateAgentState (probeCfg false 5 1) (probeAgent false none) []
        (socialObs 1) (socialObs 2) 0 (.rfloat 1) 0 false false).map
      (fun o => o.events.filter isInferLatentEvent) =
      .ok [CallEvent.inferLatentCall ⟨1, 2, false⟩ ⟨[], 2, 2, false⟩ 1
            ⟨1, 2, false⟩ true] ∧
    (⟨1, 2, false⟩ : SignalEnc) ≠
      (encodeObservation 2 [] 2 2 false false).1 := ⟨by decide, by decide⟩

theorem infer_latent_conditioning_witness :
    extractSignals (socialObs 1) (socialObs 2) = .ok ⟨1, 2, [], []⟩ ∧
    latentRewardArg (.rfloat 1) = .ok 1 ∧
    (updateAgentState (probeCfg false 5 1) (probeAgent false none) []
        (socialObs 1) (socialObs 2) 0 (.rfloat 1) 0 true false).map
      (fun o => o.events.filter isInferLatentEvent) =
      .ok [CallEvent.inferLatentCall ⟨1, 2, false⟩ ⟨[], 2, 2, false⟩ 1
            ⟨2, 2, false⟩ false] := by
  obtain ⟨out, hout, hfilter⟩ := infer_latent_conditioning (probeCfg false 5 1)
    (probeAgent false none) [] (socialObs 1) (socialObs 2) 0 (.rfloat 1) 0
    true false ⟨1, 2, [], []⟩ 1 rfl rfl
  refine ⟨rfl, rfl, ?_⟩
  rw [hout]
  simp only [Except.map, hfilter]
  rfl

theorem collectBeliefsAux_nan :
    ∀ (agents : List (ℕ × Option (List XVal))),
    (∃ p ∈ agents, ∃ d, p.2 = some d ∧ d.any XVal.isNaN = true) →
    collectBeliefsAux agents = .error .invalidBeliefDistribution := by
  intro agents
  induction agents with
  | nil =>
    rintro ⟨p, hp, _⟩
    simp at hp
  | cons q rest ih =>
    rintro ⟨p, hp, d, hd, hnan⟩
    rcases List.mem_cons.mp hp with h1 | h1
    · subst h1
      simp only [collectBeliefsAux, hd]
      simp [collectAgentBelief, hnan]
    · cases hq : q.2 with
      | none =>
        simp only [collectBeliefsAux, hq]
        exact ih ⟨p, h1, d, hd, hnan⟩
      | some d0 =>
        cases hno : d0.any XVal.isNaN with
        | true => simp [collectBeliefsAux, hq, collectAgentBelief, hno]
        | false =>
          simp only [collectBeliefsAux, hq, collectAgentBelief, hno,
            Bool.false_eq_true, reduceIte]
          rw [ih ⟨p, h1, d, hd, hnan⟩]
          rfl

/-- Claim C1 (amended): for every simulation step in a
strategic-experimentation environment, if any agent current belief
distribution contains a NaN value, the step raises
InvalidBeliefDistributionError which propagates to the caller, with no
fallback value substituted and no step result returned. Unlike the
original claim, an Inf entry alone does not trigger the check: the source
tests torch.isnan only (trainer.py line 644), see the counterexample. -/
theorem nan_belief_raises
    (cfg : TrainCfg) (training : Bool) (xs : List (ℕ × PerAgentStep))
    (actions : List (ℕ × ℚ)) (actionProbs : List (ℕ × List ℚ))
    (envAlloc : Option (List (ℕ × ℚ))) (step : ℕ)
    (h : ∃ p ∈ xs, ∃ d, p.2.agent.currentBeliefDistribution = some d ∧
         d.any XVal.isNaN = true) :
    collectPolicyInformation cfg true training
      (xs.map (fun p => (p.1, p.2.agent))) =
      .error .invalidBeliefDistribution ∧
    simulationStep cfg true training xs actions actionProbs envAlloc step =
      .error .invalidBeliefDistribution := by
  obtain ⟨p, hp, d, hd, hnan⟩ := h
  have hmem : (p.1, p.2.agent.currentBeliefDistribution) ∈
      (xs.map (fun q => (q.1, q.2.agent))).map
        (fun q => (q.1, q.2.currentBeliefDistribution)) :=
    List.mem_map.mpr ⟨(p.1, p.2.agent), List.mem_map.mpr ⟨p, hp, rfl⟩, rfl⟩
  have hb := collectBeliefsAux_nan _ ⟨_, hmem, d, hd, hnan⟩
  have hc : collectPolicyInformation cfg true training
      (xs.map (fun q => (q.1, q.2.agent))) =
      .error .invalidBeliefDistribution := by
    simp only [collectPolicyInformation, reduceIte, if_true]
    rw [hb]
  refine ⟨hc, ?_⟩
  simp only [simulationStep, hc, exceptBind_error]

/-- Claim C1 counterexample: a belief distribution containing positive
infinity but no NaN does not raise: the step returns a result, with the
Inf-carrying agent belief collected from the probability of state 1. The
claim as stated, which requires an error for Inf as well, is false at this
input. -/
theorem inf_belief_not_raised_counterexample :
    [XVal.posInf, XVal.fin 1].any XVal.isNaN = false ∧
    (simulationStep (probeCfg false 5 1) true false
        [(0, ⟨probeAgent false (some [XVal.posInf, XVal.fin 1]), [],
          stratObs (some 0) (some 1), stratObs (some 0) (some 2), 0,
          .rfloat 1, false⟩)]
        [(0, 1)] [(0, [0, 1])] none 0).map
      (fun res => (res.policyInfo, res.infoAllocations)) =
      .ok (⟨[(0, XVal.fin 1)], none, none⟩, some [(0, 1)]) :=
  ⟨by decide, by decide⟩

theorem nan_belief_raises_witness :
    [XVal.nan, XVal.fin 1].any XVal.isNaN = true ∧
    simulationStep (probeCfg false 5 1) true false
      [(0, ⟨probeAgent false (some [XVal.nan, XVal.fin 1]), [],
        stratObs (some 0) (some 1), stratObs (some 0) (some 2), 0,
        .rfloat 1, false⟩)]
      [(0, 1)] [(0, [0, 1])] none 0 = .error .invalidBeliefDistribution := by
  refine ⟨by decide, ?_⟩
  exact (nan_belief_raises (probeCfg false 5 1) false
    [(0, ⟨probeAgent false (some [XVal.nan, XVal.fin 1]), [],
      stratObs (some 0) (some 1), stratObs (some 0) (some 2), 0,
      .rfloat 1, false⟩)]
    [(0, 1)] [(0, [0, 1])] none 0
    ⟨_, List.mem_singleton.mpr rfl, [XVal.nan, XVal.fin 1], rfl, by decide⟩).2
